import Mathlib

/-!
# Verification of the commit-assistant hook-merging component

Shallow embedding, over `List Char`, of the text-manipulation core of
`commit_assistant.utils.hook_manager.HookManager` (and of the batch-update
loop of `commit_assistant.commands.update`), together with proofs of the
testable properties stated in the specification.

Python strings are modelled as `List Char`.  Filesystem state for a single
hook file is modelled as a record carrying the "file exists" flag, the file
content, and the list of backup copies made so far.  Timestamps, permission
bits and console output are not modelled.  `re.sub` (with the fixed pattern
used by the source: escaped start marker + `"\n"`, a lazy gap, `"\n"` +
escaped end marker, DOTALL) and the Python replacement-template expansion it
performs are modelled explicitly; exceptions raised by the Python code are
modelled with `Except String`.

Recursive text scans are written with an explicit fuel argument (always
instantiated with the length of the scanned text, which bounds the number of
steps since every step consumes at least one character) so that every
definition is a plain structural recursion that the kernel can evaluate.
-/

namespace CommitAssistant

/-- Newline character. -/
def nl : Char := '\n'

/-- Shorthand for `String.toList`, used to write string constants as `List Char`. -/
def sl (s : String) : List Char := s.toList

/-- Marker literal `HookManager.COMMIT_ASSISTANT_MARKER_START`. -/
def Smark : List Char := sl "### BEGIN: commit-assistant hook section (DO NOT REMOVE) ###"

/-- Marker literal `HookManager.COMMIT_ASSISTANT_MARKER_END`. -/
def Emark : List Char := sl "### END: commit-assistant hook section (DO NOT REMOVE) ###"

/-- Marker literal `HookManager.OLD_MARKER` (legacy single-line marker). -/
def OldMark : List Char := sl "# 以下內容由 commit-assistant 提供"

/-- The literal regex pattern head `re.escape(MARKER_START + "\n")`. -/
def Apat : List Char := Smark ++ [nl]

/-- The literal regex pattern tail `re.escape("\n" + MARKER_END)`. -/
def Zpat : List Char := nl :: Emark

/-! ## Substring occurrence infrastructure -/

/-- Number of positions of `t` (including the end position) at which `p`
occurs as a substring; `countSub p t = 0` means `p` is not a substring. -/
def countSub (p : List Char) : List Char → Nat
  | [] => if p <+: ([] : List Char) then 1 else 0
  | c :: t => (if p <+: (c :: t) then 1 else 0) + countSub p t

/-- Python's `in` operator for strings. -/
def hasSubB (p : List Char) : List Char → Bool
  | [] => decide (p <+: ([] : List Char))
  | c :: t => decide (p <+: (c :: t)) || hasSubB p t

/-- Python's `str.find` restricted to a found/not-found result: index of the
first occurrence of `p` in `t`. -/
def findSub (p : List Char) : List Char → Option Nat
  | [] => if p <+: ([] : List Char) then some 0 else none
  | c :: t => if p <+: (c :: t) then some 0 else (findSub p t).map (· + 1)

theorem hasSubB_iff_isInfix (p t : List Char) : hasSubB p t = true ↔ p <:+: t := by
  induction t with
  | nil =>
    simp [hasSubB, List.prefix_iff_eq_take]
  | cons c t ih =>
    simp [hasSubB, ih, List.infix_cons_iff]

theorem countSub_eq_zero_iff (p t : List Char) :
    countSub p t = 0 ↔ ¬ p <:+: t := by
  induction t with
  | nil =>
    by_cases h : p <+: ([] : List Char) <;>
      simp_all [countSub, List.prefix_iff_eq_take]
  | cons c t ih =>
    by_cases h : p <+: (c :: t) <;> simp_all [countSub, List.infix_cons_iff]

theorem hasSubB_eq_false_iff (p t : List Char) :
    hasSubB p t = false ↔ countSub p t = 0 := by
  rw [countSub_eq_zero_iff, ← hasSubB_iff_isInfix]
  simp

/-- An occurrence as "prefix of a suffix" is exactly an infix occurrence. -/
theorem infix_iff_exists_drop (p t : List Char) :
    p <:+: t ↔ ∃ i, p <+: t.drop i := by
  constructor
  · rintro ⟨a, b, rfl⟩
    exact ⟨a.length, by simp⟩
  · rintro ⟨i, h⟩
    exact (h.isInfix).trans (List.drop_suffix i t).isInfix

theorem countSub_eq_zero_iff_drop (p t : List Char) :
    countSub p t = 0 ↔ ∀ i, ¬ p <+: t.drop i := by
  rw [countSub_eq_zero_iff, infix_iff_exists_drop]
  push_neg
  rfl

theorem findSub_eq_none_iff (p t : List Char) :
    findSub p t = none ↔ ∀ i, ¬ p <+: t.drop i := by
  induction t with
  | nil =>
    by_cases h : p <+: ([] : List Char)
    · simp only [findSub, if_pos h]
      constructor
      · intro hc; cases hc
      · intro hall; exact absurd (by simpa using h) (by simpa using hall 0)
    · simp only [findSub, if_neg h]
      constructor
      · intro _ i; simpa using h
      · intro _; trivial
  | cons c t ih =>
    by_cases h : p <+: (c :: t)
    · simp only [findSub, if_pos h]
      constructor
      · intro hc; cases hc
      · intro hall; exact absurd h (by simpa using hall 0)
    · simp only [findSub, if_neg h, Option.map_eq_none']
      rw [ih]
      constructor
      · intro hall i
        match i with
        | 0 => simpa using h
        | i + 1 => simpa using hall i
      · intro hall i
        simpa using hall (i + 1)

theorem findSub_eq_some_iff (p t : List Char) (j : Nat) :
    findSub p t = some j ↔ (p <+: t.drop j ∧ ∀ i < j, ¬ p <+: t.drop i) := by
  induction t generalizing j with
  | nil =>
    by_cases h : p <+: ([] : List Char)
    · simp only [findSub, if_pos h, Option.some.injEq]
      constructor
      · rintro rfl
        exact ⟨by simpa using h, by omega⟩
      · rintro ⟨h1, h2⟩
        by_contra hne
        have hj : 0 < j := Nat.pos_of_ne_zero (fun hh => hne hh.symm)
        exact h2 0 hj (by simpa using h)
    · simp only [findSub, if_neg h]
      constructor
      · intro hc; cases hc
      · rintro ⟨h1, _⟩
        exact absurd (by simpa using h1) h
  | cons c t ih =>
    by_cases h : p <+: (c :: t)
    · simp only [findSub, if_pos h, Option.some.injEq]
      constructor
      · rintro rfl
        exact ⟨by simpa using h, by omega⟩
      · rintro ⟨_, h2⟩
        by_contra hne
        have hj : 0 < j := Nat.pos_of_ne_zero (fun hh => hne hh.symm)
        exact h2 0 hj (by simpa using h)
    · simp only [findSub, if_neg h]
      match j with
      | 0 =>
        simp only [List.drop_zero]
        constructor
        · intro hc
          rcases Option.map_eq_some'.mp hc with ⟨k, _, hk⟩
          omega
        · rintro ⟨h1, _⟩
          exact absurd h1 h
      | j + 1 =>
        constructor
        · intro hc
          rcases Option.map_eq_some'.mp hc with ⟨k, hk, hkeq⟩
          have hkj : k = j := by omega
          rw [hkj] at hk
          rcases (ih j).mp hk with ⟨h1, h2⟩
          refine ⟨by simpa using h1, ?_⟩
          intro i hi
          match i with
          | 0 => simpa using h
          | i + 1 =>
            have := h2 i (by omega)
            simpa using this
        · rintro ⟨h1, h2⟩
          have hj : findSub p t = some j := by
            rw [ih j]
            refine ⟨by simpa using h1, ?_⟩
            intro i hi
            have := h2 (i + 1) (by omega)
            simpa using this
          simp [hj]

theorem findSub_bound (p t : List Char) (j : Nat) (hp : p ≠ [])
    (h : findSub p t = some j) : j + p.length ≤ t.length := by
  rcases (findSub_eq_some_iff p t j).mp h with ⟨h1, _⟩
  have hlen := h1.length_le
  simp only [List.length_drop] at hlen
  rcases p with _ | ⟨c, p⟩
  · exact absurd rfl hp
  · by_cases hj : j ≤ t.length
    · omega
    · rw [List.drop_eq_nil_of_le (by omega)] at h1
      have := h1.length_le
      simp at this

theorem prefix_append_iff_of_le {p x : List Char} (y : List Char)
    (h : p.length ≤ x.length) : p <+: x ++ y ↔ p <+: x := by
  rw [List.prefix_iff_eq_take, List.prefix_iff_eq_take,
    List.take_append_of_le_length h]

theorem mem_of_prefix_append_cons {x : List Char} : ∀ {p y : List Char} {c : Char},
    p <+: x ++ c :: y → x.length < p.length → c ∈ p := by
  induction x with
  | nil =>
    intro p y c h hlen
    rcases p with _ | ⟨q, p⟩
    · simp at hlen
    · rw [List.nil_append, List.cons_prefix_cons] at h
      simp [h.1]
  | cons a x ih =>
    intro p y c h hlen
    rcases p with _ | ⟨q, p⟩
    · simp at hlen
    · rw [List.cons_append, List.cons_prefix_cons] at h
      simp only [List.length_cons, Nat.add_lt_add_iff_right] at hlen
      exact List.mem_cons_of_mem _ (ih h.2 hlen)

/-- Occurrence-splitting at a character that the pattern does not contain. -/
theorem prefix_append_cons_iff {p x y : List Char} {c : Char} (hc : c ∉ p) :
    p <+: x ++ c :: y ↔ p <+: x := by
  constructor
  · intro h
    by_cases hlen : p.length ≤ x.length
    · exact (prefix_append_iff_of_le _ hlen).mp h
    · exact absurd (mem_of_prefix_append_cons h (by omega)) hc
  · intro h
    exact h.trans (List.prefix_append x (c :: y))

/-- Counting occurrences splits at any character the pattern avoids. -/
theorem countSub_append_cons (p x y : List Char) (c : Char) (hc : c ∉ p) :
    countSub p (x ++ c :: y) = countSub p x + countSub p y := by
  induction x with
  | nil =>
    rcases p with _ | ⟨q, p⟩
    · simp [countSub]
    · have h1 : ¬ (q :: p <+: c :: y) := fun h => by
        rw [List.cons_prefix_cons] at h
        exact hc (by simp [h.1])
      simp [countSub, h1]
  | cons a x ih =>
    have h3 : p <+: (a :: x) ++ c :: y ↔ p <+: a :: x := prefix_append_cons_iff hc
    simp only [List.cons_append] at h3
    simp only [List.cons_append, countSub, List.append_eq, ih, h3]
    omega

theorem countSub_zero_of_isInfix {p t₁ t₂ : List Char} (h : t₁ <:+: t₂)
    (h2 : countSub p t₂ = 0) : countSub p t₁ = 0 := by
  rw [countSub_eq_zero_iff] at h2 ⊢
  exact fun hi => h2 (hi.trans h)

theorem countSub_eq_zero_append_cons {p x y : List Char} {c : Char} (hc : c ∉ p)
    (hx : countSub p x = 0) (hy : countSub p y = 0) :
    countSub p (x ++ c :: y) = 0 := by
  rw [countSub_append_cons p x y c hc, hx, hy]

/-! ## Python string primitives -/

/-- ASCII whitespace stripped by Python's `str.strip()` / `str.rstrip()`
(the source only ever strips ASCII text; the full Unicode whitespace set of
Python is not needed and not modelled). -/
def pyWs (c : Char) : Bool :=
  c = ' ' || c = '\t' || c = '\n' || c = '\r' || c = '\x0b' || c = '\x0c'

/-- Python `str.lstrip()`. -/
def pyLstrip (l : List Char) : List Char := l.dropWhile pyWs

/-- Python `str.rstrip()`. -/
def pyRstrip (l : List Char) : List Char := (l.reverse.dropWhile pyWs).reverse

/-- Python `str.strip()`. -/
def pyStrip (l : List Char) : List Char := pyRstrip (pyLstrip l)

/-- Python `str.endswith("\n")`. -/
def endsWithNl (l : List Char) : Bool :=
  match l.getLast? with
  | some c => c = nl
  | none => false

/-- Python `str.replace(pat, to)` (all non-overlapping occurrences, scanning
left to right), written with fuel so the kernel can evaluate it; `pat` is
always nonempty where used, so `s.length` fuel suffices. -/
def pyReplaceF (pat rep : List Char) : Nat → List Char → List Char
  | _, [] => []
  | 0, s => s
  | fuel + 1, c :: s =>
    if pat ≠ [] ∧ pat <+: (c :: s) then
      rep ++ pyReplaceF pat rep fuel ((c :: s).drop pat.length)
    else
      c :: pyReplaceF pat rep fuel s

/-- Python `str.replace(pat, rep)`. -/
def pyReplace (pat rep s : List Char) : List Char := pyReplaceF pat rep s.length s

theorem dropWhile_suffix (p : Char → Bool) (l : List Char) : l.dropWhile p <:+ l := by
  induction l with
  | nil => simp
  | cons c l ih =>
    by_cases h : p c
    · rw [List.dropWhile_cons_of_pos h]
      exact ih.trans (List.suffix_cons c l)
    · rw [List.dropWhile_cons_of_neg h]

theorem pyLstrip_suffix (l : List Char) : pyLstrip l <:+ l := dropWhile_suffix _ l

theorem pyRstrip_isPrefix (l : List Char) : pyRstrip l <+: l := by
  have h := dropWhile_suffix pyWs l.reverse
  rw [← List.reverse_prefix] at h
  simpa [pyRstrip] using h

theorem pyStrip_isInfix (l : List Char) : pyStrip l <:+: l :=
  ((pyRstrip_isPrefix (pyLstrip l)).isInfix).trans (pyLstrip_suffix l).isInfix

theorem pyRstrip_isInfix (l : List Char) : pyRstrip l <:+: l :=
  (pyRstrip_isPrefix l).isInfix

/-! ## Python regex replacement-template expansion

Model of CPython's `sre_parse.parse_template` specialised to the pattern the
source uses (which has zero capture groups), and of the expansion of the
parsed template at a match.  Group references `\1`‥`\99` and named references
`\g<name>` are errors (no such groups); `\g<0>` references the whole match;
octal escapes and the standard character escapes are translated; an unknown
ASCII-letter escape or a trailing lone backslash raises `re.error`.  Errors
are modelled as `Except.error` with a short description. -/

inductive TItem where
  | lit (s : List Char)
  | group0
deriving DecidableEq

/-- Expansion of a parsed template at a match `m` (the matched span). -/
def expandT (tmpl : List TItem) (m : List Char) : List Char :=
  match tmpl with
  | [] => []
  | .lit s :: rest => s ++ expandT rest m
  | .group0 :: rest => m ++ expandT rest m

/-- Scan up to the first `>` (for `\g<name>`): returns the name and the
remainder after the `>`. -/
def splitUntilGt : List Char → Option (List Char × List Char)
  | [] => none
  | c :: r =>
    if c = '>' then some ([], r)
    else (splitUntilGt r).map (fun pr => (c :: pr.1, pr.2))

theorem splitUntilGt_length : ∀ {l n r : List Char},
    splitUntilGt l = some (n, r) → r.length < l.length := by
  intro l
  induction l with
  | nil => intro n r h; cases h
  | cons c l ih =>
    intro n r h
    by_cases hc : c = '>'
    · simp only [splitUntilGt, if_pos hc, Option.some.injEq, Prod.mk.injEq] at h
      rw [← h.2]
      simp
    · simp only [splitUntilGt, if_neg hc, Option.map_eq_some'] at h
      rcases h with ⟨⟨n', r'⟩, h1, h2⟩
      have := ih h1
      simp only [Prod.mk.injEq] at h2
      rw [← h2.2]
      simp
      omega

/-- Octal digit test. -/
def isOct (c : Char) : Bool := '0' ≤ c && c ≤ '7'

/-- Numeric value of a digit character. -/
def digitVal (c : Char) : Nat := c.toNat - '0'.toNat

/-- The `ESCAPES` table of `sre_parse` (standard character escapes). -/
def escChar (c : Char) : Option Char :=
  if c = 'a' then some (Char.ofNat 7)
  else if c = 'b' then some (Char.ofNat 8)
  else if c = 'f' then some (Char.ofNat 12)
  else if c = 'n' then some nl
  else if c = 'r' then some (Char.ofNat 13)
  else if c = 't' then some (Char.ofNat 9)
  else if c = 'v' then some (Char.ofNat 11)
  else if c = '\\' then some '\\'
  else none

/-- Model of `sre_parse.parse_template` for a zero-group pattern, with fuel (the
length of the remaining input always bounds the number of steps). -/
def parseTemplateF : Nat → List Char → Except String (List TItem)
  | _, [] => .ok []
  | 0, _ :: _ => .error "out of fuel"
  | fuel + 1, c :: rest =>
    if c = '\\' then
      match rest with
      | [] => .error "bad escape (end of pattern)"
      | d :: rest2 =>
        if d = 'g' then
          match rest2 with
          | '<' :: rest3 =>
            match splitUntilGt rest3 with
            | none => .error "missing >, unterminated name"
            | some (name, after) =>
              if name = [] then .error "missing group name"
              else if name.all Char.isDigit then
                if name.all (fun ch => ch = '0') then
                  (parseTemplateF fuel after).map (fun tm => .group0 :: tm)
                else .error "invalid group reference"
              else .error "unknown group name"
          | _ => .error "missing <"
        else if d = '0' then
          match rest2 with
          | e1 :: rest3 =>
            if isOct e1 then
              match rest3 with
              | e2 :: rest4 =>
                if isOct e2 then
                  (parseTemplateF fuel rest4).map
                    (fun tm => .lit [Char.ofNat (digitVal e1 * 8 + digitVal e2)] :: tm)
                else
                  (parseTemplateF fuel rest3).map
                    (fun tm => .lit [Char.ofNat (digitVal e1)] :: tm)
              | [] =>
                (parseTemplateF fuel rest3).map
                  (fun tm => .lit [Char.ofNat (digitVal e1)] :: tm)
            else
              (parseTemplateF fuel rest2).map (fun tm => .lit [Char.ofNat 0] :: tm)
          | [] => (parseTemplateF fuel rest2).map (fun tm => .lit [Char.ofNat 0] :: tm)
        else if d.isDigit then
          match rest2 with
          | e :: f :: rest4 =>
            if e.isDigit && isOct d && isOct e && isOct f then
              let v := digitVal d * 64 + digitVal e * 8 + digitVal f
              if v > 255 then .error "octal escape value outside of range 0-0o377"
              else (parseTemplateF fuel rest4).map (fun tm => .lit [Char.ofNat v] :: tm)
            else .error "invalid group reference"
          | _ => .error "invalid group reference"
        else
          match escChar d with
          | some ch => (parseTemplateF fuel rest2).map (fun tm => .lit [ch] :: tm)
          | none =>
            if d.isAlpha then .error "bad escape"
            else (parseTemplateF fuel rest2).map (fun tm => .lit ['\\', d] :: tm)
    else
      (parseTemplateF fuel rest).map (fun tm => .lit [c] :: tm)

/-- Model of `sre_parse.parse_template` for a zero-group pattern. -/
def parseTemplate (l : List Char) : Except String (List TItem) :=
  parseTemplateF l.length l

/-! ## `re.sub` with the hook-section pattern

`re.sub(escape(START + "\n") + ".*?" + escape("\n" + END), repl, text,
flags=re.DOTALL)`: scan left to right; a match starts at the first
occurrence of `START + "\n"` (there is no earlier match: the lazy gap `.*?`
matches any characters, so a position matches iff it starts with the start
pattern and the end pattern occurs later); the lazy gap ends at the first
occurrence of `"\n" + END`; the match is replaced by the expanded template
and scanning resumes after the match. -/

theorem Apat_ne_nil : Apat ≠ [] := by decide

theorem Zpat_ne_nil : Zpat ≠ [] := by decide

theorem findSub_nil (p : List Char) (hp : p ≠ []) : findSub p [] = none := by
  simp [findSub, List.prefix_nil, hp]

theorem Apat_len_pos : 1 ≤ Apat.length := List.length_pos.mpr Apat_ne_nil

/-- One `re.sub` scanning pass, with fuel. -/
def resubGoF (tmpl : List TItem) : Nat → List Char → List Char
  | 0, t => t
  | fuel + 1, t =>
    match findSub Apat t with
    | none => t
    | some j =>
      match findSub Zpat (t.drop (j + Apat.length)) with
      | none => t
      | some k =>
        t.take j ++ expandT tmpl ((t.drop j).take (Apat.length + k + Zpat.length))
          ++ resubGoF tmpl fuel ((t.drop (j + Apat.length)).drop (k + Zpat.length))

/-- Model of `re.sub` of the hook-section pattern with parsed template `tmpl` over
text `t` (the fuel `t.length` bounds the number of matches). -/
def resubGoT (tmpl : List TItem) (t : List Char) : List Char :=
  resubGoF tmpl t.length t

theorem resubGoF_irrel (tmpl : List TItem) :
    ∀ f1 f2 t, t.length ≤ f1 → t.length ≤ f2 →
      resubGoF tmpl f1 t = resubGoF tmpl f2 t := by
  intro f1
  induction f1 with
  | zero =>
    intro f2 t h1 _
    have ht : t = [] := List.length_eq_zero.mp (by omega)
    subst ht
    match f2 with
    | 0 => rfl
    | f2 + 1 => simp [resubGoF, findSub_nil Apat Apat_ne_nil]
  | succ f1 ih =>
    intro f2 t h1 h2
    match f2 with
    | 0 =>
      have ht : t = [] := List.length_eq_zero.mp (by omega)
      subst ht
      simp [resubGoF, findSub_nil Apat Apat_ne_nil]
    | f2 + 1 =>
      cases hA : findSub Apat t with
      | none => simp only [resubGoF, hA]
      | some j =>
        cases hZ : findSub Zpat (t.drop (j + Apat.length)) with
        | none => simp only [resubGoF, hA, hZ]
        | some k =>
          simp only [resubGoF, hA, hZ]
          have hW : ((t.drop (j + Apat.length)).drop (k + Zpat.length)).length ≤ f1 ∧
              ((t.drop (j + Apat.length)).drop (k + Zpat.length)).length ≤ f2 := by
            have hAl : 1 ≤ Apat.length := Apat_len_pos
            simp only [List.length_drop]
            omega
          rw [ih f2 _ hW.1 hW.2]

theorem resubGoT_eq (tmpl : List TItem) (t : List Char) :
    resubGoT tmpl t =
      match findSub Apat t with
      | none => t
      | some j =>
        match findSub Zpat (t.drop (j + Apat.length)) with
        | none => t
        | some k =>
          t.take j ++ expandT tmpl ((t.drop j).take (Apat.length + k + Zpat.length))
            ++ resubGoT tmpl ((t.drop (j + Apat.length)).drop (k + Zpat.length)) := by
  rcases t with _ | ⟨c, t0⟩
  · simp [resubGoT, resubGoF, findSub_nil Apat Apat_ne_nil]
  · show resubGoF tmpl (c :: t0).length (c :: t0) = _
    simp only [List.length_cons]
    cases hA : findSub Apat (c :: t0) with
    | none => simp only [resubGoF, hA]
    | some j =>
      cases hZ : findSub Zpat ((c :: t0).drop (j + Apat.length)) with
      | none => simp only [resubGoF, hA, hZ]
      | some k =>
        simp only [resubGoF, hA, hZ, resubGoT]
        have hjb := findSub_bound Apat (c :: t0) j Apat_ne_nil hA
        have hAl : 1 ≤ Apat.length := Apat_len_pos
        rw [resubGoF_irrel tmpl t0.length
          (((c :: t0).drop (j + Apat.length)).drop (k + Zpat.length)).length _
          (by simp only [List.length_drop, List.length_cons] at hjb ⊢; omega)
          (le_refl _)]

/-! ## Placement of the first pattern occurrence -/

theorem nl_not_mem_Smark : nl ∉ Smark := by decide

theorem nl_not_mem_Emark : nl ∉ Emark := by decide

/-- In `u ++ Apat ++ w` with no start-marker occurrence in `u`, the first
occurrence of the start pattern is exactly at `u.length`. -/
theorem findSub_A_block (u w : List Char) (hu : countSub Smark u = 0) :
    findSub Apat (u ++ Apat ++ w) = some u.length := by
  rw [List.append_assoc, findSub_eq_some_iff]
  constructor
  · rw [List.drop_left]
    exact List.prefix_append _ _
  · intro i hi hpre
    rw [List.drop_append_of_le_length (by omega)] at hpre
    by_cases hcase : Apat.length ≤ (u.drop i).length
    · have h1 : Apat <+: u.drop i := (prefix_append_iff_of_le _ hcase).mp hpre
      have h2 : Smark <+: u.drop i := (List.prefix_append Smark [nl]).trans h1
      exact (countSub_eq_zero_iff_drop Smark u).mp hu i h2
    · -- the occurrence would straddle the `u`/`Apat` boundary
      set d := (u.drop i).length with hd
      have hd1 : 1 ≤ d := by
        simp only [hd, List.length_drop]
        omega
      have hd2 : d < Apat.length := by omega
      have heq : Apat = u.drop i ++ Apat.take (Apat.length - d) := by
        have h0 := List.prefix_iff_eq_take.mp hpre
        rw [List.take_append_eq_append_take,
          List.take_of_length_le (by omega),
          List.take_append_of_le_length (by omega)] at h0
        exact h0
      have hdrop : Apat.drop d = Apat.take (Apat.length - d) := by
        conv_lhs => rw [heq]
        rw [hd, List.drop_left]
      have hpre2 : Apat.drop d <+: Apat := hdrop ▸ List.take_prefix _ _
      have hlen2 : (Apat.drop d).length ≤ Smark.length := by
        simp only [List.length_drop, Apat, List.length_append, List.length_cons]
        simp only [List.length_nil]
        omega
      have hpre3 : Apat.drop d <+: Smark := by
        have : Apat = Smark ++ [nl] := rfl
        rw [this] at hpre2
        exact (prefix_append_iff_of_le _ hlen2).mp hpre2
      have hnl : nl ∈ Apat.drop d := by
        have : Apat.drop d = Smark.drop d ++ [nl] := by
          show (Smark ++ [nl]).drop d = _
          rw [List.drop_append_of_le_length (by
            have := Apat_len_pos
            simp only [Apat, List.length_append, List.length_cons, List.length_nil] at hd2
            omega)]
        rw [this]
        simp
      exact nl_not_mem_Smark (hpre3.subset hnl)

/-- In `p ++ Zpat ++ v` with no end-marker occurrence in `p`, the first
occurrence of the end pattern is exactly at `p.length`. -/
theorem findSub_Z_block (p v : List Char) (hp : countSub Emark p = 0) :
    findSub Zpat (p ++ Zpat ++ v) = some p.length := by
  rw [List.append_assoc, findSub_eq_some_iff]
  constructor
  · rw [List.drop_left]
    exact List.prefix_append _ _
  · intro i hi hpre
    rw [List.drop_append_of_le_length (by omega)] at hpre
    by_cases hcase : Zpat.length ≤ (p.drop i).length
    · have h1 : Zpat <+: p.drop i := (prefix_append_iff_of_le _ hcase).mp hpre
      have h2 : Emark <:+: p := by
        have hZinf : Zpat <:+: p := (infix_iff_exists_drop _ _).mpr ⟨i, h1⟩
        exact (List.suffix_cons nl Emark).isInfix.trans hZinf
      exact (countSub_eq_zero_iff Emark p).mp hp h2
    · set d := (p.drop i).length with hd
      have hd1 : 1 ≤ d := by
        simp only [hd, List.length_drop]
        omega
      have hd2 : d < Zpat.length := by omega
      have heq : Zpat = p.drop i ++ Zpat.take (Zpat.length - d) := by
        have h0 := List.prefix_iff_eq_take.mp hpre
        rw [List.take_append_eq_append_take,
          List.take_of_length_le (by omega),
          List.take_append_of_le_length (by omega)] at h0
        exact h0
      have hdrop : Zpat.drop d = Zpat.take (Zpat.length - d) := by
        conv_lhs => rw [heq]
        rw [hd, List.drop_left]
      have hpre2 : Zpat.drop d <+: Zpat := hdrop ▸ List.take_prefix _ _
      have hdE : Zpat.drop d = Emark.drop (d - 1) := by
        show (nl :: Emark).drop d = _
        have hsplit : d = (d - 1) + 1 := by omega
        conv_lhs => rw [hsplit]
        rw [List.drop_succ_cons]
      have hne : Emark.drop (d - 1) ≠ [] := by
        intro hcon
        have := congrArg List.length hcon
        simp only [List.length_drop, List.length_nil] at this
        have hZl : Zpat.length = Emark.length + 1 := by
          simp [Zpat]
        omega
      rcases hEd : Emark.drop (d - 1) with _ | ⟨c, r⟩
      · exact hne hEd
      · rw [hdE, hEd] at hpre2
        have hc : c = nl := by
          have := List.cons_prefix_cons.mp hpre2
          exact this.1
        have hcmem : c ∈ Emark := (List.drop_subset (d-1) Emark) (by rw [hEd]; simp)
        rw [hc] at hcmem
        exact nl_not_mem_Emark hcmem

/-- Replacing the text from the first occurrence of `P` onwards leaves the
position of the first occurrence unchanged. -/
theorem findSub_stable {P t : List Char} {j : Nat} (hP : P ≠ [])
    (h : findSub P t = some j) (w : List Char) :
    findSub P (t.take j ++ P ++ w) = some j := by
  have hjb := findSub_bound P t j hP h
  have hj : j ≤ t.length := by
    have := List.length_pos.mpr hP
    omega
  have htl : (t.take j).length = j := by
    simp [List.length_take]
    omega
  rcases (findSub_eq_some_iff P t j).mp h with ⟨h1, h2⟩
  rw [List.append_assoc, findSub_eq_some_iff]
  constructor
  · have hdj : (t.take j ++ (P ++ w)).drop j = P ++ w := by
      rw [List.drop_append_of_le_length (by omega),
        List.drop_eq_nil_of_le (by omega), List.nil_append]
    rw [hdj]
    exact List.prefix_append _ _
  · intro i hi hpre
    rw [List.drop_append_of_le_length (by omega)] at hpre
    rcases h1 with ⟨w', hw'⟩
    refine h2 i hi ?_
    have hq : P = ((t.take j).drop i ++ P).take P.length := by
      have h0 := List.prefix_iff_eq_take.mp hpre
      rw [← List.append_assoc, List.take_append_of_le_length (by simp)] at h0
      exact h0
    rw [List.prefix_iff_eq_take]
    have hsplit : t.drop i = ((t.take j).drop i ++ P) ++ w' := by
      conv_lhs => rw [← List.take_append_drop j t]
      rw [List.drop_append_of_le_length (by omega), ← hw', ← List.append_assoc]
    rw [hsplit, List.take_append_of_le_length (by simp)]
    exact hq

/-- If the start marker does not occur in `t`, `re.sub` leaves `t`
unchanged. -/
theorem resub_none (tmpl : List TItem) (t : List Char)
    (h : countSub Smark t = 0) : resubGoT tmpl t = t := by
  rw [resubGoT_eq]
  have hA : findSub Apat t = none := by
    rw [findSub_eq_none_iff]
    intro i hpre
    exact (countSub_eq_zero_iff_drop Smark t).mp h i
      ((List.prefix_append Smark [nl]).trans hpre)
  simp [hA]

/-- A full well-formed managed block at the first start-marker position is
replaced by the expanded template, and scanning continues after it. -/
theorem resub_span (tmpl : List TItem) (R : List Char) (hR : ∀ m, expandT tmpl m = R)
    (u mid v : List Char) (hu : countSub Smark u = 0) (hmid : countSub Emark mid = 0) :
    resubGoT tmpl (u ++ Apat ++ mid ++ Zpat ++ v) = u ++ R ++ resubGoT tmpl v := by
  have hA := findSub_A_block u (mid ++ Zpat ++ v) hu
  have hZ := findSub_Z_block mid v hmid
  simp only [List.append_assoc] at hA hZ ⊢
  have hdropA : (u ++ (Apat ++ (mid ++ (Zpat ++ v)))).drop (u.length + Apat.length) =
      mid ++ (Zpat ++ v) := by
    rw [List.drop_append, List.drop_left]
  have htake : (u ++ (Apat ++ (mid ++ (Zpat ++ v)))).take u.length = u :=
    List.take_left u _
  have hdropj : (u ++ (Apat ++ (mid ++ (Zpat ++ v)))).drop u.length =
      Apat ++ (mid ++ (Zpat ++ v)) := List.drop_left u _
  have hspan : (Apat ++ (mid ++ (Zpat ++ v))).take (Apat.length + mid.length + Zpat.length) =
      Apat ++ (mid ++ Zpat) := by
    rw [Nat.add_assoc, List.take_append, List.take_append, List.take_left]
  have hdropmid : (mid ++ (Zpat ++ v)).drop (mid.length + Zpat.length) = v := by
    rw [List.drop_append, List.drop_left]
  rw [resubGoT_eq]
  simp only [hA]
  rw [hdropA]
  simp only [hZ]
  rw [htake, hdropj, hspan, hR, hdropmid, List.append_assoc]

/-- Scanning text that begins with a gap already scanned (up to the first
start-pattern occurrence) followed by a freshly substituted block replaces
that block by itself and continues after it. -/
theorem resub_after_replace (tmpl : List TItem) (p : List Char)
    (hR : ∀ m, expandT tmpl m = Apat ++ p ++ Zpat) (hp : countSub Emark p = 0)
    {t : List Char} {j : Nat} (hA : findSub Apat t = some j) (V : List Char) :
    resubGoT tmpl (t.take j ++ (Apat ++ p ++ Zpat) ++ V) =
      t.take j ++ (Apat ++ p ++ Zpat) ++ resubGoT tmpl V := by
  have hjb := findSub_bound Apat t j Apat_ne_nil hA
  have hAl := Apat_len_pos
  have hlen : (t.take j).length = j := by
    simp only [List.length_take]
    omega
  have hstable := findSub_stable Apat_ne_nil hA (p ++ Zpat ++ V)
  set u := t.take j with hu
  simp only [List.append_assoc] at hstable ⊢
  have hdropA : (u ++ (Apat ++ (p ++ (Zpat ++ V)))).drop (j + Apat.length) =
      p ++ (Zpat ++ V) := by
    rw [← hlen, List.drop_append, List.drop_left]
  have hZ := findSub_Z_block p V hp
  simp only [List.append_assoc] at hZ
  have htake : (u ++ (Apat ++ (p ++ (Zpat ++ V)))).take j = u := by
    rw [← hlen, List.take_left]
  have hdropj : (u ++ (Apat ++ (p ++ (Zpat ++ V)))).drop j =
      Apat ++ (p ++ (Zpat ++ V)) := by
    rw [← hlen, List.drop_left]
  have hspan : (Apat ++ (p ++ (Zpat ++ V))).take (Apat.length + p.length + Zpat.length) =
      Apat ++ (p ++ Zpat) := by
    rw [Nat.add_assoc, List.take_append, List.take_append, List.take_left]
  have hdropmid : (p ++ (Zpat ++ V)).drop (p.length + Zpat.length) = V := by
    rw [List.drop_append, List.drop_left]
  rw [resubGoT_eq]
  simp only [hstable]
  rw [hdropA]
  simp only [hZ]
  rw [htake, hdropj, hspan, hR, hdropmid]
  simp [List.append_assoc]

/-- Idempotence of the `re.sub` pass when the payload contains no end-marker
occurrence (so the freshly written block terminates its own lazy match). -/
theorem resub_idem (tmpl : List TItem) (p : List Char)
    (hR : ∀ m, expandT tmpl m = Apat ++ p ++ Zpat) (hp : countSub Emark p = 0)
    (t : List Char) : resubGoT tmpl (resubGoT tmpl t) = resubGoT tmpl t := by
  suffices h : ∀ n t, t.length ≤ n →
      resubGoT tmpl (resubGoT tmpl t) = resubGoT tmpl t from
    h t.length t (le_refl _)
  intro n
  induction n with
  | zero =>
    intro t ht
    have ht0 : t = [] := List.length_eq_zero.mp (by omega)
    subst ht0
    have h0 : resubGoT tmpl [] = [] := by
      rw [resubGoT_eq]
      simp [findSub_nil Apat Apat_ne_nil]
    rw [h0, h0]
  | succ n ih =>
    intro t ht
    cases hA : findSub Apat t with
    | none =>
      have h0 : resubGoT tmpl t = t := by
        rw [resubGoT_eq]
        simp [hA]
      rw [h0, h0]
    | some j =>
      cases hZ : findSub Zpat (t.drop (j + Apat.length)) with
      | none =>
        have h0 : resubGoT tmpl t = t := by
          rw [resubGoT_eq]
          simp [hA, hZ]
        rw [h0, h0]
      | some k =>
        have hjb := findSub_bound Apat t j Apat_ne_nil hA
        have hAl := Apat_len_pos
        have h0 : resubGoT tmpl t =
            t.take j ++ (Apat ++ p ++ Zpat) ++
              resubGoT tmpl ((t.drop (j + Apat.length)).drop (k + Zpat.length)) := by
          rw [resubGoT_eq]
          simp only [hA, hZ, hR, List.append_assoc]
        have hWlen : ((t.drop (j + Apat.length)).drop (k + Zpat.length)).length ≤ n := by
          simp only [List.length_drop]
          omega
        have hVfix := ih _ hWlen
        rw [h0, resub_after_replace tmpl p hR hp hA _, hVfix]

/-! ## Template facts for backslash-free payloads -/

theorem parseTemplate_cons_clean {c : Char} (hc : c ≠ '\\') (l : List Char) :
    parseTemplate (c :: l) = (parseTemplate l).map (fun tm => TItem.lit [c] :: tm) := by
  simp only [parseTemplate, List.length_cons, parseTemplateF, if_neg hc]

theorem parseTemplate_clean_append {pre : List Char} (hpre : ∀ c ∈ pre, c ≠ '\\')
    (rest : List Char) :
    parseTemplate (pre ++ rest) =
      (parseTemplate rest).map
        (fun tm => pre.map (fun c => TItem.lit [c]) ++ tm) := by
  induction pre with
  | nil =>
    rcases h : parseTemplate rest with e | tm <;> simp [h, Except.map]
  | cons c pre ih =>
    have hc : c ≠ '\\' := hpre c (by simp)
    have hpre' : ∀ c' ∈ pre, c' ≠ '\\' := fun c' hc' => hpre c' (by simp [hc'])
    rw [List.cons_append, parseTemplate_cons_clean hc, ih hpre']
    rcases h : parseTemplate rest with e | tm <;> simp [h, Except.map]

theorem expandT_lit_map (pre : List Char) (tm : List TItem) (m : List Char) :
    expandT (pre.map (fun c => TItem.lit [c]) ++ tm) m = pre ++ expandT tm m := by
  induction pre with
  | nil => simp
  | cons c pre ih =>
    simp [expandT, ih]

theorem parseTemplate_clean {l : List Char} (hl : ∀ c ∈ l, c ≠ '\\') :
    parseTemplate l = .ok (l.map (fun c => TItem.lit [c])) := by
  have := parseTemplate_clean_append hl []
  simpa [parseTemplate, parseTemplateF, Except.map] using this

theorem expandT_clean (l m : List Char) :
    expandT (l.map (fun c => TItem.lit [c])) m = l := by
  have := expandT_lit_map l [] m
  simpa [expandT] using this

theorem backslash_not_mem_Smark : '\\' ∉ Smark := by decide

theorem backslash_not_mem_Emark : '\\' ∉ Emark := by decide

theorem nl_ne_backslash : nl ≠ '\\' := by decide

/-- The replacement string built by the source,
`MARKER_START ++ "\n" ++ payload ++ "\n" ++ MARKER_END`, rearranged around
the two pattern constants. -/
theorem replacement_eq (p : List Char) :
    Smark ++ [nl] ++ p ++ [nl] ++ Emark = Apat ++ p ++ Zpat := by
  simp [Apat, Zpat, List.append_assoc]

/-- For a backslash-free payload the replacement template is literal and
expands to the replacement block at every match. -/
theorem parseTemplate_block (p : List Char) (hp : ∀ c ∈ p, c ≠ '\\') :
    ∃ tm, parseTemplate (Smark ++ [nl] ++ p ++ [nl] ++ Emark) = .ok tm ∧
      ∀ m, expandT tm m = Apat ++ p ++ Zpat := by
  have hclean : ∀ c ∈ Smark ++ [nl] ++ p ++ [nl] ++ Emark, c ≠ '\\' := by
    intro c hc
    simp only [List.mem_append, List.mem_singleton] at hc
    rcases hc with ((((hc | hc) | hc) | hc) | hc)
    · exact fun he => backslash_not_mem_Smark (he ▸ hc)
    · rw [hc]; exact nl_ne_backslash
    · exact hp c hc
    · rw [hc]; exact nl_ne_backslash
    · exact fun he => backslash_not_mem_Emark (he ▸ hc)
  refine ⟨_, parseTemplate_clean hclean, ?_⟩
  intro m
  rw [expandT_clean, replacement_eq]

/-! ## The hook manager operations

Each definition is a direct transcription of the correspondingly named
method of `commit_assistant.utils.hook_manager.HookManager`. -/

/-- The `HookVersion` enum of the source. -/
inductive HookVersion where
  | notInstalled
  | old
  | new
deriving DecidableEq

/-- Model of `HookManager._detect_hook_version`. -/
def detectHookVersion (content : List Char) : HookVersion :=
  if hasSubB Smark content then HookVersion.new
  else if hasSubB OldMark content then HookVersion.old
  else HookVersion.notInstalled

/-- Model of `HookManager._extract_old_hook_content`: find the legacy marker, then the
first newline at or after it (the marker contains no newline, so this is the
first newline after the marker), return everything after that newline with
surrounding whitespace stripped (`str.strip()`). -/
def extractOldHookContent (content : List Char) : List Char :=
  match findSub OldMark content with
  | none => []
  | some i =>
    match findSub [nl] (content.drop i) with
    | none => []
    | some k => pyStrip (content.drop (i + k + 1))

/-- Model of `HookManager._migrate_to_new_format`. -/
def migrateToNewFormat (content : List Char) : List Char :=
  let oldHookContent := extractOldHookContent content
  match findSub OldMark content with
  | none => content
  | some i =>
    pyRstrip (content.take i) ++ [nl, nl] ++ Smark ++ [nl] ++ oldHookContent
      ++ [nl] ++ Emark ++ [nl]

/-- Model of `HookManager._inject_hooks`; the filesystem read of the hook file is
modelled by the pair (`hookExists`, `currentContent`). -/
def injectHooks (hookExists : Bool) (currentContent hookTemplateContent : List Char) :
    List Char :=
  if hookExists = false then
    sl "#!/bin/sh\n\n" ++ Smark ++ [nl] ++ hookTemplateContent ++ [nl] ++ Emark ++ [nl]
  else if hasSubB Smark currentContent then currentContent
  else
    sl "#!/bin/sh\n\n" ++ sl "# Original hook content\n"
      ++ pyReplace (sl "#!/bin/sh\n") [] currentContent
      ++ [nl] ++ Smark ++ [nl] ++ hookTemplateContent ++ [nl] ++ Emark ++ [nl]

/-- Model of `HookManager._replace_commit_assistant_section`.  The append branch never
runs the regex engine; the substitution branch first parses the replacement
template (raising `re.error` on bad escapes), then runs the scan. -/
def replaceCommitAssistantSection (currentContent newHookContent : List Char) :
    Except String (List Char) :=
  let replacement := Smark ++ [nl] ++ newHookContent ++ [nl] ++ Emark
  if hasSubB Smark currentContent = false then
    let ensured :=
      if endsWithNl currentContent then currentContent else currentContent ++ [nl]
    .ok (ensured ++ [nl] ++ replacement ++ [nl])
  else
    match parseTemplate replacement with
    | .error e => .error e
    | .ok tmpl => .ok (resubGoT tmpl currentContent)

/-- State of one repository's hook file: existence flag, content, and the
contents of the backup copies made so far (most recent first).  Timestamped
backup names and permission bits are not modelled. -/
structure HookState where
  hookExists : Bool
  content : List Char
  backups : List (List Char)
deriving DecidableEq

/-- Model of `HookManager._backup_existing_hook`: copy the hook file if it exists;
returns the new state and whether a backup was made. -/
def backupExistingHook (s : HookState) : HookState × Bool :=
  if s.hookExists then ({ s with backups := s.content :: s.backups }, true)
  else (s, false)

/-- Model of `HookManager.install_hook` in a repository where husky detection is
negative (the plain-git variant): backup if the file exists, then inject and
write. -/
def installHookGit (hookContent : List Char) (s : HookState) : HookState :=
  let s1 := (backupExistingHook s).1
  { hookExists := true,
    content := injectHooks s.hookExists s.content hookContent,
    backups := s1.backups }

/-- Model of `HookManager._install_hook_husky`: no backup is ever made. -/
def installHookHusky (hookContent : List Char) (s : HookState) : HookState :=
  let full := Smark ++ [nl] ++ hookContent ++ [nl] ++ Emark
  if s.hookExists then
    if hasSubB Smark s.content then s
    else { s with content := s.content ++ [nl] ++ full ++ [nl] }
  else { hookExists := true, content := full ++ [nl], backups := s.backups }

/-- Model of `HookManager._update_git_hook_with_version`.  If the file is missing this
falls back to a fresh install (the repository is known to be non-husky in
this variant).  Otherwise: migrate OLD-format content, substitute the
managed section, and write (with a backup of the on-disk content) only when
the candidate text differs from the (possibly migrated) current text.
`migratedContent` is the reassigned `current_content` local of the source
after the version check. -/
def migratedContent (content : List Char) : List Char :=
  if detectHookVersion content = HookVersion.old then migrateToNewFormat content
  else content

def updateGitHookWithVersion (newHookContent : List Char) (s : HookState) :
    Except String HookState :=
  if s.hookExists = false then .ok (installHookGit newHookContent s)
  else
    match replaceCommitAssistantSection (migratedContent s.content) newHookContent with
    | .error e => .error e
    | .ok updated =>
      if updated = migratedContent s.content then .ok s
      else
        .ok { hookExists := true, content := updated,
              backups := s.content :: s.backups }

/-- Model of `HookManager._update_husky_hook_with_version`: same merge semantics as
the git variant but the write is performed without any backup. -/
def updateHuskyHookWithVersion (newHookContent : List Char) (s : HookState) :
    Except String HookState :=
  if s.hookExists = false then .ok (installHookHusky newHookContent s)
  else
    match replaceCommitAssistantSection (migratedContent s.content) newHookContent with
    | .error e => .error e
    | .ok updated =>
      if updated = migratedContent s.content then .ok s
      else .ok { s with content := updated }

/-! ## The batch update loop (`commands/update.py::_update_all_repos`) -/

/-- Outcome of the batch loop: repositories processed (in order), failures
reported, and installation records re-added. -/
structure BatchResult where
  attempted : List (List Char)
  failures : List (List Char × String)
  recorded : List (List Char)
deriving DecidableEq

/-- Model of `_update_all_repos`: iterate over the recorded installations; each
repository's update runs inside `try/except` — a failure is reported and the
loop continues with the next repository; `add_installation` runs only after
a successful update.  The per-repository update (filesystem and git work of
`UpdateManager.update`) is abstracted as the function argument `upd`. -/
def updateAllRepos (upd : List Char → Except String Unit) :
    List (List Char) → BatchResult
  | [] => ⟨[], [], []⟩
  | r :: rest =>
    match upd r with
    | .error e =>
      let res := updateAllRepos upd rest
      ⟨r :: res.attempted, (r, e) :: res.failures, res.recorded⟩
    | .ok _ =>
      let res := updateAllRepos upd rest
      ⟨r :: res.attempted, res.failures, r :: res.recorded⟩

/-! ## Branch characterizations of the operations -/

theorem replaceSection_append (cur p : List Char) (h : hasSubB Smark cur = false) :
    replaceCommitAssistantSection cur p =
      .ok ((if endsWithNl cur then cur else cur ++ [nl]) ++ [nl]
        ++ (Smark ++ [nl] ++ p ++ [nl] ++ Emark) ++ [nl]) := by
  simp [replaceCommitAssistantSection, h]

theorem replaceSection_sub (cur p : List Char) (tm : List TItem)
    (h : hasSubB Smark cur = true)
    (htm : parseTemplate (Smark ++ [nl] ++ p ++ [nl] ++ Emark) = .ok tm) :
    replaceCommitAssistantSection cur p = .ok (resubGoT tm cur) := by
  have htm2 : parseTemplate (Smark ++ nl :: (p ++ nl :: Emark)) = .ok tm := by
    simpa [List.append_assoc] using htm
  simp [replaceCommitAssistantSection, h, htm2]

theorem update_git_notexists (p : List Char) (s : HookState)
    (hex : s.hookExists = false) :
    updateGitHookWithVersion p s = .ok (installHookGit p s) := by
  simp [updateGitHookWithVersion, hex]

theorem update_git_exists (p : List Char) (s : HookState) (hex : s.hookExists = true)
    {r : List Char}
    (hr : replaceCommitAssistantSection (migratedContent s.content) p = .ok r) :
    updateGitHookWithVersion p s =
      if r = migratedContent s.content then .ok s
      else .ok ⟨true, r, s.content :: s.backups⟩ := by
  simp only [updateGitHookWithVersion, hex, hr]
  rfl

theorem update_husky_notexists (p : List Char) (s : HookState)
    (hex : s.hookExists = false) :
    updateHuskyHookWithVersion p s = .ok (installHookHusky p s) := by
  simp [updateHuskyHookWithVersion, hex]

theorem update_husky_exists (p : List Char) (s : HookState) (hex : s.hookExists = true)
    {r : List Char}
    (hr : replaceCommitAssistantSection (migratedContent s.content) p = .ok r) :
    updateHuskyHookWithVersion p s =
      if r = migratedContent s.content then .ok s
      else .ok { s with content := r } := by
  simp only [updateHuskyHookWithVersion, hex, hr]
  rfl

/-! ## Fixpoint infrastructure for idempotence -/

theorem resub_fix_of_block_form (tm : List TItem) (p : List Char)
    (hexp : ∀ m, expandT tm m = Apat ++ p ++ Zpat) (hE : countSub Emark p = 0)
    (u v : List Char) (hu : countSub Smark u = 0) (hv : countSub Smark v = 0) :
    resubGoT tm (u ++ Apat ++ p ++ Zpat ++ v) = u ++ Apat ++ p ++ Zpat ++ v := by
  rw [resub_span tm _ hexp u p v hu hE, resub_none tm v hv]
  simp [List.append_assoc]

/-- A `re.sub` pass either changes nothing or leaves a text containing the
start marker. -/
theorem resub_changed_contains (tm : List TItem) (p : List Char)
    (hexp : ∀ m, expandT tm m = Apat ++ p ++ Zpat) (t : List Char) :
    resubGoT tm t = t ∨ hasSubB Smark (resubGoT tm t) = true := by
  cases hA : findSub Apat t with
  | none =>
    left
    rw [resubGoT_eq]
    simp [hA]
  | some j =>
    cases hZ : findSub Zpat (t.drop (j + Apat.length)) with
    | none =>
      left
      rw [resubGoT_eq]
      simp [hA, hZ]
    | some k =>
      right
      rw [resubGoT_eq]
      simp only [hA, hZ, hexp]
      rw [hasSubB_iff_isInfix]
      exact ⟨t.take j, [nl] ++ p ++ Zpat ++
        resubGoT tm ((t.drop (j + Apat.length)).drop (k + Zpat.length)),
        by simp [Apat, List.append_assoc]⟩

theorem hasSubB_block (u p v : List Char) :
    hasSubB Smark (u ++ Apat ++ p ++ Zpat ++ v) = true := by
  rw [hasSubB_iff_isInfix]
  exact ⟨u, [nl] ++ p ++ Zpat ++ v, by simp [Apat, List.append_assoc]⟩

theorem ne_of_hasSubB_ne {x y : List Char} (hx : hasSubB Smark x = true)
    (hy : hasSubB Smark y = false) : x ≠ y := by
  intro h
  rw [h, hy] at hx
  cases hx

theorem countSub_nil_of_ne {q : List Char} (hq : q ≠ []) : countSub q [] = 0 := by
  simp [countSub, List.prefix_nil, hq]

theorem countSub_append_nl_right {q x : List Char} (hq : q ≠ []) (hnl : nl ∉ q)
    (hx : countSub q x = 0) : countSub q (x ++ [nl]) = 0 := by
  have h := countSub_append_cons q x [] nl hnl
  rw [h, hx, countSub_nil_of_ne hq]

theorem Smark_ne_nil : Smark ≠ [] := by decide

theorem Emark_ne_nil : Emark ≠ [] := by decide

theorem OldMark_ne_nil : OldMark ≠ [] := by decide

theorem migratedContent_of_has_S {c : List Char} (hS : hasSubB Smark c = true) :
    migratedContent c = c := by
  simp [migratedContent, detectHookVersion, hS]

/-- Second run of the git update on a state whose content contains the start
marker and is a fixpoint of the substitution: nothing is written and no
backup is made. -/
theorem update_git_second (p c : List Char) (B : List (List Char)) (tm : List TItem)
    (htm : parseTemplate (Smark ++ [nl] ++ p ++ [nl] ++ Emark) = .ok tm)
    (hS : hasSubB Smark c = true) (hfix : resubGoT tm c = c) :
    updateGitHookWithVersion p ⟨true, c, B⟩ = .ok ⟨true, c, B⟩ := by
  have hm : migratedContent c = c := migratedContent_of_has_S hS
  have hr : replaceCommitAssistantSection
      (migratedContent (HookState.mk true c B).content) p = .ok c := by
    show replaceCommitAssistantSection (migratedContent c) p = .ok c
    rw [hm, replaceSection_sub c p tm hS htm, hfix]
  rw [update_git_exists p ⟨true, c, B⟩ rfl hr]
  show (if c = migratedContent c then _ else _) = _
  rw [hm, if_pos rfl]

/-- Second run of the husky update, same situation. -/
theorem update_husky_second (p c : List Char) (B : List (List Char)) (tm : List TItem)
    (htm : parseTemplate (Smark ++ [nl] ++ p ++ [nl] ++ Emark) = .ok tm)
    (hS : hasSubB Smark c = true) (hfix : resubGoT tm c = c) :
    updateHuskyHookWithVersion p ⟨true, c, B⟩ = .ok ⟨true, c, B⟩ := by
  have hm : migratedContent c = c := migratedContent_of_has_S hS
  have hr : replaceCommitAssistantSection
      (migratedContent (HookState.mk true c B).content) p = .ok c := by
    show replaceCommitAssistantSection (migratedContent c) p = .ok c
    rw [hm, replaceSection_sub c p tm hS htm, hfix]
  rw [update_husky_exists p ⟨true, c, B⟩ rfl hr]
  show (if c = migratedContent c then _ else _) = _
  rw [hm, if_pos rfl]

theorem countSub_S_shebang2 : countSub Smark (sl "#!/bin/sh\n\n") = 0 := by decide

theorem countSub_S_nl : countSub Smark [nl] = 0 := by decide

theorem block_form_eq (u p v : List Char) :
    u ++ Smark ++ [nl] ++ p ++ [nl] ++ Emark ++ v = u ++ Apat ++ p ++ Zpat ++ v := by
  simp [Apat, Zpat, List.append_assoc]

/-- C1 (amended): for a payload free of backslashes and of end-marker
occurrences, a second `update` run right after a first successful one leaves
the state (file content and backups) exactly as the first run left it, in
both the plain-git and the husky variant. -/
theorem update_idempotent (p : List Char)
    (hbs : ∀ c ∈ p, c ≠ '\\') (hE : countSub Emark p = 0) :
    ∀ s s1 : HookState,
      (updateGitHookWithVersion p s = .ok s1 →
        updateGitHookWithVersion p s1 = .ok s1) ∧
      (updateHuskyHookWithVersion p s = .ok s1 →
        updateHuskyHookWithVersion p s1 = .ok s1) := by
  obtain ⟨tm, htm, hexp⟩ := parseTemplate_block p hbs
  intro s s1
  have hfixblock : ∀ u v, countSub Smark u = 0 → countSub Smark v = 0 →
      resubGoT tm (u ++ Apat ++ p ++ Zpat ++ v) = u ++ Apat ++ p ++ Zpat ++ v :=
    fun u v hu hv => resub_fix_of_block_form tm p hexp hE u v hu hv
  have happcount : ∀ mc : List Char, countSub Smark mc = 0 →
      countSub Smark ((if endsWithNl mc then mc else mc ++ [nl]) ++ [nl]) = 0 := by
    intro mc hmc
    by_cases hend : endsWithNl mc
    · rw [if_pos hend]
      exact countSub_append_nl_right Smark_ne_nil nl_not_mem_Smark hmc
    · rw [if_neg hend]
      exact countSub_append_nl_right Smark_ne_nil nl_not_mem_Smark
        (countSub_append_nl_right Smark_ne_nil nl_not_mem_Smark hmc)
  constructor
  · -- plain-git variant
    intro h
    cases hexb : s.hookExists with
    | false =>
      rw [update_git_notexists p s hexb] at h
      have hs1 : s1 = installHookGit p s := (Except.ok.inj h).symm
      have hcont : s1 = ⟨true,
          sl "#!/bin/sh\n\n" ++ Smark ++ [nl] ++ p ++ [nl] ++ Emark ++ [nl],
          s.backups⟩ := by
        rw [hs1]
        simp [installHookGit, backupExistingHook, injectHooks, hexb]
      rw [hcont, block_form_eq]
      exact update_git_second p _ s.backups tm htm (hasSubB_block _ _ _)
        (hfixblock _ _ countSub_S_shebang2 countSub_S_nl)
    | true =>
      by_cases hSm : hasSubB Smark (migratedContent s.content) = true
      · have hr := replaceSection_sub (migratedContent s.content) p tm hSm htm
        rw [update_git_exists p s hexb hr] at h
        by_cases hchg : resubGoT tm (migratedContent s.content) = migratedContent s.content
        · rw [if_pos hchg] at h
          have hs1 : s1 = s := (Except.ok.inj h).symm
          rw [hs1, update_git_exists p s hexb hr, if_pos hchg]
        · rw [if_neg hchg] at h
          have hs1 : s1 = ⟨true, resubGoT tm (migratedContent s.content),
              s.content :: s.backups⟩ := (Except.ok.inj h).symm
          have hSu : hasSubB Smark (resubGoT tm (migratedContent s.content)) = true := by
            rcases resub_changed_contains tm p hexp (migratedContent s.content) with he | hT
            · exact absurd he hchg
            · exact hT
          rw [hs1]
          exact update_git_second p _ _ tm htm hSu
            (resub_idem tm p hexp hE (migratedContent s.content))
      · have hSmf : hasSubB Smark (migratedContent s.content) = false :=
          Bool.eq_false_iff.mpr hSm
        have hr := replaceSection_append (migratedContent s.content) p hSmf
        rw [update_git_exists p s hexb hr] at h
        have hblock : (if endsWithNl (migratedContent s.content) then
              migratedContent s.content
            else migratedContent s.content ++ [nl]) ++ [nl]
            ++ (Smark ++ [nl] ++ p ++ [nl] ++ Emark) ++ [nl] =
            ((if endsWithNl (migratedContent s.content) then migratedContent s.content
              else migratedContent s.content ++ [nl]) ++ [nl])
              ++ Apat ++ p ++ Zpat ++ [nl] := by
          simp [Apat, Zpat, List.append_assoc]
        have hSapp : hasSubB Smark ((if endsWithNl (migratedContent s.content) then
            migratedContent s.content else migratedContent s.content ++ [nl]) ++ [nl]
            ++ (Smark ++ [nl] ++ p ++ [nl] ++ Emark) ++ [nl]) = true := by
          rw [hblock]
          exact hasSubB_block _ _ _
        have hne : (if endsWithNl (migratedContent s.content) then
            migratedContent s.content else migratedContent s.content ++ [nl]) ++ [nl]
            ++ (Smark ++ [nl] ++ p ++ [nl] ++ Emark) ++ [nl] ≠
            migratedContent s.content := ne_of_hasSubB_ne hSapp hSmf
        rw [if_neg hne] at h
        have hs1 : s1 = ⟨true, _, s.content :: s.backups⟩ := (Except.ok.inj h).symm
        rw [hs1, hblock]
        exact update_git_second p _ _ tm htm (hasSubB_block _ _ _)
          (hfixblock _ _
            (happcount _ ((hasSubB_eq_false_iff _ _).mp hSmf)) countSub_S_nl)
  · -- husky variant
    intro h
    cases hexb : s.hookExists with
    | false =>
      rw [update_husky_notexists p s hexb] at h
      have hs1 : s1 = installHookHusky p s := (Except.ok.inj h).symm
      have hcont : s1 = ⟨true,
          Smark ++ [nl] ++ p ++ [nl] ++ Emark ++ [nl], s.backups⟩ := by
        rw [hs1]
        simp [installHookHusky, hexb]
      have hbl : Smark ++ [nl] ++ p ++ [nl] ++ Emark ++ [nl] =
          [] ++ Apat ++ p ++ Zpat ++ [nl] := by
        simpa using block_form_eq [] p [nl]
      rw [hcont, hbl]
      exact update_husky_second p _ s.backups tm htm (hasSubB_block _ _ _)
        (hfixblock _ _ (countSub_nil_of_ne Smark_ne_nil) countSub_S_nl)
    | true =>
      by_cases hSm : hasSubB Smark (migratedContent s.content) = true
      · have hr := replaceSection_sub (migratedContent s.content) p tm hSm htm
        rw [update_husky_exists p s hexb hr] at h
        by_cases hchg : resubGoT tm (migratedContent s.content) = migratedContent s.content
        · rw [if_pos hchg] at h
          have hs1 : s1 = s := (Except.ok.inj h).symm
          rw [hs1, update_husky_exists p s hexb hr, if_pos hchg]
        · rw [if_neg hchg] at h
          have hs1 : s1 = { s with content := resubGoT tm (migratedContent s.content) } :=
            (Except.ok.inj h).symm
          have hs1' : s1 = ⟨true, resubGoT tm (migratedContent s.content), s.backups⟩ := by
            rw [hs1, ← hexb]
          have hSu : hasSubB Smark (resubGoT tm (migratedContent s.content)) = true := by
            rcases resub_changed_contains tm p hexp (migratedContent s.content) with he | hT
            · exact absurd he hchg
            · exact hT
          rw [hs1']
          exact update_husky_second p _ _ tm htm hSu
            (resub_idem tm p hexp hE (migratedContent s.content))
      · have hSmf : hasSubB Smark (migratedContent s.content) = false :=
          Bool.eq_false_iff.mpr hSm
        have hr := replaceSection_append (migratedContent s.content) p hSmf
        rw [update_husky_exists p s hexb hr] at h
        have hblock : (if endsWithNl (migratedContent s.content) then
              migratedContent s.content
            else migratedContent s.content ++ [nl]) ++ [nl]
            ++ (Smark ++ [nl] ++ p ++ [nl] ++ Emark) ++ [nl] =
            ((if endsWithNl (migratedContent s.content) then migratedContent s.content
              else migratedContent s.content ++ [nl]) ++ [nl])
              ++ Apat ++ p ++ Zpat ++ [nl] := by
          simp [Apat, Zpat, List.append_assoc]
        have hSapp : hasSubB Smark ((if endsWithNl (migratedContent s.content) then
            migratedContent s.content else migratedContent s.content ++ [nl]) ++ [nl]
            ++ (Smark ++ [nl] ++ p ++ [nl] ++ Emark) ++ [nl]) = true := by
          rw [hblock]
          exact hasSubB_block _ _ _
        have hne : (if endsWithNl (migratedContent s.content) then
            migratedContent s.content else migratedContent s.content ++ [nl]) ++ [nl]
            ++ (Smark ++ [nl] ++ p ++ [nl] ++ Emark) ++ [nl] ≠
            migratedContent s.content := ne_of_hasSubB_ne hSapp hSmf
        rw [if_neg hne] at h
        have hs1 : s1 = { s with content := _ } := (Except.ok.inj h).symm
        have hs1' : s1 = ⟨true, (if endsWithNl (migratedContent s.content) then
            migratedContent s.content else migratedContent s.content ++ [nl]) ++ [nl]
            ++ (Smark ++ [nl] ++ p ++ [nl] ++ Emark) ++ [nl], s.backups⟩ := by
          rw [hs1, ← hexb]
        rw [hs1', hblock]
        exact update_husky_second p _ _ tm htm (hasSubB_block _ _ _)
          (hfixblock _ _
            (happcount _ ((hasSubB_eq_false_iff _ _).mp hSmf)) countSub_S_nl)

/-- Decidable equality on `Except`, for evaluating the modelled operations
on concrete inputs. -/
instance exceptDecEq {ε α : Type} [DecidableEq ε] [DecidableEq α] :
    DecidableEq (Except ε α) := fun a b =>
  match a, b with
  | .ok x, .ok y =>
    if h : x = y then .isTrue (by rw [h]) else .isFalse (by simp [h])
  | .error e, .error f =>
    if h : e = f then .isTrue (by rw [h]) else .isFalse (by simp [h])
  | .ok _, .error _ => .isFalse (by simp)
  | .error _, .ok _ => .isFalse (by simp)

theorem update_idempotent_witness :
    (∀ c ∈ sl "x", c ≠ '\\') ∧ countSub Emark (sl "x") = 0 ∧
    updateGitHookWithVersion (sl "x")
        ⟨true, sl "#!/bin/sh\n\n" ++ Smark ++ [nl] ++ sl "x" ++ [nl] ++ Emark ++ [nl], []⟩ =
      .ok ⟨true, sl "#!/bin/sh\n\n" ++ Smark ++ [nl] ++ sl "x" ++ [nl] ++ Emark ++ [nl], []⟩ :=
  ⟨by decide, by decide,
    (update_idempotent (sl "x") (by decide) (by decide)
        ⟨false, [], []⟩
        ⟨true, sl "#!/bin/sh\n\n" ++ Smark ++ [nl] ++ sl "x" ++ [nl] ++ Emark ++ [nl], []⟩).1
      (by decide)⟩

/-! ## Backup behaviour (C3) -/

theorem detect_old_no_S {c : List Char} (hd : detectHookVersion c = HookVersion.old) :
    hasSubB Smark c = false ∧ hasSubB OldMark c = true := by
  by_cases h1 : hasSubB Smark c <;> by_cases h2 : hasSubB OldMark c <;>
    simp_all [detectHookVersion]

theorem findSub_isSome_of_hasSubB {p t : List Char} (h : hasSubB p t = true) :
    ∃ i, findSub p t = some i := by
  cases hf : findSub p t with
  | none =>
    exfalso
    rw [findSub_eq_none_iff] at hf
    rw [hasSubB_iff_isInfix, infix_iff_exists_drop] at h
    rcases h with ⟨i, hi⟩
    exact hf i hi
  | some i => exact ⟨i, rfl⟩

theorem migrate_has_S {c : List Char} (h : hasSubB OldMark c = true) :
    hasSubB Smark (migrateToNewFormat c) = true := by
  rcases findSub_isSome_of_hasSubB h with ⟨i, hi⟩
  rw [hasSubB_iff_isInfix]
  simp only [migrateToNewFormat, hi]
  exact ⟨pyRstrip (c.take i) ++ [nl, nl],
    [nl] ++ extractOldHookContent c ++ [nl] ++ Emark ++ [nl],
    by simp [List.append_assoc]⟩

theorem migrated_no_S {c : List Char} (h : hasSubB Smark (migratedContent c) = false) :
    migratedContent c = c ∧ hasSubB Smark c = false := by
  by_cases hd : detectHookVersion c = HookVersion.old
  · exfalso
    have hOld := (detect_old_no_S hd).2
    have := migrate_has_S hOld
    rw [migratedContent, if_pos hd] at h
    rw [this] at h
    cases h
  · rw [migratedContent, if_neg hd] at h ⊢
    exact ⟨rfl, h⟩

theorem update_git_exists_err (p : List Char) (s : HookState) (hex : s.hookExists = true)
    {e : String}
    (hr : replaceCommitAssistantSection (migratedContent s.content) p = .error e) :
    updateGitHookWithVersion p s = .error e := by
  simp only [updateGitHookWithVersion, hex, hr]
  rfl

theorem update_husky_exists_err (p : List Char) (s : HookState) (hex : s.hookExists = true)
    {e : String}
    (hr : replaceCommitAssistantSection (migratedContent s.content) p = .error e) :
    updateHuskyHookWithVersion p s = .error e := by
  simp only [updateHuskyHookWithVersion, hex, hr]
  rfl

/-- The expansion of the parsed replacement template always starts with the
start marker (the replacement string does, and its marker prefix is
backslash-free, hence literal). -/
theorem expandT_starts_Smark (rest : List Char) {tm : List TItem}
    (htm : parseTemplate (Smark ++ rest) = .ok tm) (m : List Char) :
    Smark <+: expandT tm m := by
  have hpre : ∀ c ∈ Smark, c ≠ '\\' :=
    fun c hc he => backslash_not_mem_Smark (he ▸ hc)
  rw [parseTemplate_clean_append hpre rest] at htm
  cases hrest : parseTemplate rest with
  | error e =>
    rw [hrest] at htm
    simp [Except.map] at htm
  | ok tm' =>
    rw [hrest] at htm
    have hmv : tm = Smark.map (fun c => TItem.lit [c]) ++ tm' := by
      have := htm.symm
      simpa [Except.map] using this
    rw [hmv, expandT_lit_map]
    exact List.prefix_append _ _

/-- Generalization of `resub_changed_contains` to any template whose
expansion starts with the start marker. -/
theorem resub_changed_contains2 (tm : List TItem)
    (hS : ∀ m, Smark <+: expandT tm m) (t : List Char) :
    resubGoT tm t = t ∨ hasSubB Smark (resubGoT tm t) = true := by
  cases hA : findSub Apat t with
  | none =>
    left
    rw [resubGoT_eq]
    simp [hA]
  | some j =>
    cases hZ : findSub Zpat (t.drop (j + Apat.length)) with
    | none =>
      left
      rw [resubGoT_eq]
      simp [hA, hZ]
    | some k =>
      right
      rw [resubGoT_eq]
      simp only [hA, hZ]
      rcases hS ((t.drop j).take (Apat.length + k + Zpat.length)) with ⟨r, hr⟩
      rw [hasSubB_iff_isInfix, ← hr]
      exact ⟨t.take j, r ++
        resubGoT tm ((t.drop (j + Apat.length)).drop (k + Zpat.length)),
        by simp [List.append_assoc]⟩

theorem replaceSection_sub_err (cur p : List Char) {e : String}
    (h : hasSubB Smark cur = true)
    (hpt : parseTemplate (Smark ++ [nl] ++ p ++ [nl] ++ Emark) = .error e) :
    replaceCommitAssistantSection cur p = .error e := by
  have hpt2 : parseTemplate (Smark ++ nl :: (p ++ nl :: Emark)) = .error e := by
    simpa [List.append_assoc] using hpt
  simp [replaceCommitAssistantSection, h, hpt2]

/-- C3 (amended): a timestamped backup is created by the plain-git `update`
exactly when it modifies an existing hook file; the plain-git `update` on a
missing file and the husky `update` never create one; the plain-git
`install` creates one exactly when the hook file already exists, whether or
not the install modifies it. -/
theorem backup_iff_modify (p : List Char) :
    ∀ s s1 : HookState,
      (s.hookExists = true → updateGitHookWithVersion p s = .ok s1 →
        ((s1.content = s.content ∧ s1.backups = s.backups) ∨
         (s1.content ≠ s.content ∧ s1.backups = s.content :: s.backups))) ∧
      (s.hookExists = false → updateGitHookWithVersion p s = .ok s1 →
        s1.backups = s.backups) ∧
      (updateHuskyHookWithVersion p s = .ok s1 → s1.backups = s.backups) ∧
      ((installHookGit p s).backups =
        if s.hookExists then s.content :: s.backups else s.backups) := by
  intro s s1
  refine ⟨?_, ?_, ?_, ?_⟩
  · -- plain-git update, file exists
    intro hex h
    cases hrs : replaceCommitAssistantSection (migratedContent s.content) p with
    | error e =>
      rw [update_git_exists_err p s hex hrs] at h
      cases h
    | ok r =>
      rw [update_git_exists p s hex hrs] at h
      by_cases heq : r = migratedContent s.content
      · rw [if_pos heq] at h
        have hs1 : s1 = s := (Except.ok.inj h).symm
        rw [hs1]
        exact Or.inl ⟨rfl, rfl⟩
      · rw [if_neg heq] at h
        have hs1 : s1 = ⟨true, r, s.content :: s.backups⟩ := (Except.ok.inj h).symm
        refine Or.inr ⟨?_, by rw [hs1]⟩
        rw [hs1]
        show r ≠ s.content
        by_cases hSm : hasSubB Smark (migratedContent s.content) = true
        · -- substitution branch: the written text contains the start marker
          by_cases hd : detectHookVersion s.content = HookVersion.old
          · -- OLD file: its content has no start marker but `r` does
            have hcS := (detect_old_no_S hd).1
            cases hpt : parseTemplate (Smark ++ [nl] ++ p ++ [nl] ++ Emark) with
            | error e =>
              exfalso
              have herr := replaceSection_sub_err (migratedContent s.content) p hSm hpt
              rw [herr] at hrs
              cases hrs
            | ok tm =>
              have hr2 := replaceSection_sub (migratedContent s.content) p tm hSm hpt
              rw [hrs] at hr2
              have hrr : r = resubGoT tm (migratedContent s.content) := Except.ok.inj hr2
              have hstart : ∀ m, Smark <+: expandT tm m := by
                intro m
                refine expandT_starts_Smark ([nl] ++ p ++ [nl] ++ Emark) ?_ m
                rw [← hpt]
                congr 1
              rcases resub_changed_contains2 tm hstart (migratedContent s.content) with hfix | hT
              · rw [← hrr] at hfix
                exact absurd hfix heq
              · rw [← hrr] at hT
                exact ne_of_hasSubB_ne hT hcS
          · -- NEW or NOT_INSTALLED: the migrated text is the file content
            have hmc : migratedContent s.content = s.content := by
              rw [migratedContent, if_neg hd]
            rw [← hmc]
            exact heq
        · -- append branch: the current content has no start marker, `r` has
          have hSmf : hasSubB Smark (migratedContent s.content) = false :=
            Bool.eq_false_iff.mpr hSm
          obtain ⟨hmc, hcS⟩ := migrated_no_S hSmf
          have hr2 := replaceSection_append (migratedContent s.content) p hSmf
          rw [hrs] at hr2
          have hrr : r = (if endsWithNl (migratedContent s.content) then
              migratedContent s.content else migratedContent s.content ++ [nl]) ++ [nl]
              ++ (Smark ++ [nl] ++ p ++ [nl] ++ Emark) ++ [nl] := Except.ok.inj hr2
          have hblock := block_form_eq
            ((if endsWithNl (migratedContent s.content) then migratedContent s.content
              else migratedContent s.content ++ [nl]) ++ [nl]) p [nl]
          have hT : hasSubB Smark r = true := by
            rw [hrr]
            have : (if endsWithNl (migratedContent s.content) then
                migratedContent s.content else migratedContent s.content ++ [nl]) ++ [nl]
                ++ (Smark ++ [nl] ++ p ++ [nl] ++ Emark) ++ [nl] =
                ((if endsWithNl (migratedContent s.content) then migratedContent s.content
                  else migratedContent s.content ++ [nl]) ++ [nl])
                  ++ Apat ++ p ++ Zpat ++ [nl] := by
              simp [Apat, Zpat, List.append_assoc]
            rw [this]
            exact hasSubB_block _ _ _
          exact ne_of_hasSubB_ne hT hcS
  · -- plain-git update, no file: fresh install makes no backup
    intro hex h
    rw [update_git_notexists p s hex] at h
    have hs1 : s1 = installHookGit p s := (Except.ok.inj h).symm
    rw [hs1]
    simp [installHookGit, backupExistingHook, hex]
  · -- husky update: never a backup
    intro h
    cases hexb : s.hookExists with
    | false =>
      rw [update_husky_notexists p s hexb] at h
      have hs1 : s1 = installHookHusky p s := (Except.ok.inj h).symm
      rw [hs1]
      by_cases hS : hasSubB Smark s.content = true <;>
        simp [installHookHusky, hexb, hS]
    | true =>
      cases hrs : replaceCommitAssistantSection (migratedContent s.content) p with
      | error e =>
        rw [update_husky_exists_err p s hexb hrs] at h
        cases h
      | ok r =>
        rw [update_husky_exists p s hexb hrs] at h
        by_cases heq : r = migratedContent s.content
        · rw [if_pos heq] at h
          have hs1 : s1 = s := (Except.ok.inj h).symm
          rw [hs1]
        · rw [if_neg heq] at h
          have hs1 : s1 = { s with content := r } := (Except.ok.inj h).symm
          rw [hs1]
  · -- plain-git install: backup iff the file existed
    by_cases hex : s.hookExists <;>
      simp [installHookGit, backupExistingHook, hex]

theorem backup_iff_modify_witness :
    (((⟨true, sl "a\n" ++ [nl] ++ Smark ++ [nl] ++ sl "x" ++ [nl] ++ Emark ++ [nl],
        [sl "a\n"]⟩ : HookState).content = (⟨true, sl "a\n", []⟩ : HookState).content ∧
      (⟨true, sl "a\n" ++ [nl] ++ Smark ++ [nl] ++ sl "x" ++ [nl] ++ Emark ++ [nl],
        [sl "a\n"]⟩ : HookState).backups = (⟨true, sl "a\n", []⟩ : HookState).backups) ∨
     ((⟨true, sl "a\n" ++ [nl] ++ Smark ++ [nl] ++ sl "x" ++ [nl] ++ Emark ++ [nl],
        [sl "a\n"]⟩ : HookState).content ≠ (⟨true, sl "a\n", []⟩ : HookState).content ∧
      (⟨true, sl "a\n" ++ [nl] ++ Smark ++ [nl] ++ sl "x" ++ [nl] ++ Emark ++ [nl],
        [sl "a\n"]⟩ : HookState).backups =
        (⟨true, sl "a\n", []⟩ : HookState).content ::
          (⟨true, sl "a\n", []⟩ : HookState).backups)) :=
  (backup_iff_modify (sl "x") ⟨true, sl "a\n", []⟩
      ⟨true, sl "a\n" ++ [nl] ++ Smark ++ [nl] ++ sl "x" ++ [nl] ++ Emark ++ [nl],
        [sl "a\n"]⟩).1 (by decide) (by decide)

/-- C3 counterexample: a husky `update` that modifies an existing hook file
creates no backup, so backup-iff-modify does not hold identically for the
two variants. -/
theorem backup_iff_modify_cex :
    ((updateHuskyHookWithVersion (sl "x") ⟨true, sl "a\n", []⟩).map
      (fun s1 => (decide (s1.content = sl "a\n"), s1.backups.length))) =
      .ok (false, 0) := by decide

set_option maxRecDepth 40000 in
/-- C1 counterexample: with a payload that itself contains the end-marker
literal, the second `update` run changes the file again and creates a second
backup (the lazy match of the substitution ends inside the previously
written payload). -/
theorem update_idempotent_cex :
    ((updateGitHookWithVersion (sl "x\n" ++ Emark ++ sl "\ny")
        ⟨true, sl "a\n", []⟩).bind
      (fun s1 => (updateGitHookWithVersion (sl "x\n" ++ Emark ++ sl "\ny") s1).map
        (fun s2 => (decide (s2.content = s1.content), s2.backups.length)))) =
      .ok (false, 2) := by decide

/-- C9: in the multi-repo batch update, every recorded repository is
processed in order regardless of earlier failures, failures are reported
per repository, and exactly the successfully updated repositories are
re-recorded (a failing repository's installation record is not re-added). -/
theorem batch_update_isolation (upd : List Char → Except String Unit)
    (installations : List (List Char)) :
    (updateAllRepos upd installations).attempted = installations ∧
    (updateAllRepos upd installations).recorded =
      installations.filter (fun r => (upd r).isOk) ∧
    (updateAllRepos upd installations).failures =
      installations.filterMap
        (fun r => match upd r with | .error e => some (r, e) | .ok _ => none) := by
  induction installations with
  | nil => simp [updateAllRepos]
  | cons r rest ih =>
    rcases h : upd r with e | u
    · simp [updateAllRepos, h, ih.1, ih.2.1, ih.2.2, Except.isOk, Except.toBool]
    · simp [updateAllRepos, h, ih.1, ih.2.1, ih.2.2, Except.isOk, Except.toBool]

/-! ## Legacy extractor (C6) and migration (C4) -/

theorem nl_not_mem_OldMark : nl ∉ OldMark := by decide

theorem sofOld : ∀ d < OldMark.length, 0 < d → ¬ (OldMark.drop d <+: OldMark) := by
  decide

theorem sofNl : ∀ d < ([nl] : List Char).length, 0 < d →
    ¬ (([nl] : List Char).drop d <+: [nl]) := by
  decide

/-- First occurrence of a self-overlap-free pattern `M` in `a ++ M ++ b`
with no occurrence inside `a` is at `a.length`. -/
theorem findSub_block_of_sof {M : List Char}
    (hsof : ∀ d < M.length, 0 < d → ¬ (M.drop d <+: M))
    (a b : List Char) (ha : countSub M a = 0) :
    findSub M (a ++ M ++ b) = some a.length := by
  rw [List.append_assoc, findSub_eq_some_iff]
  constructor
  · rw [List.drop_left]
    exact List.prefix_append _ _
  · intro i hi hpre
    rw [List.drop_append_of_le_length (by omega)] at hpre
    by_cases hcase : M.length ≤ (a.drop i).length
    · have h1 : M <+: a.drop i := (prefix_append_iff_of_le _ hcase).mp hpre
      exact (countSub_eq_zero_iff_drop M a).mp ha i h1
    · set d := (a.drop i).length with hd
      have hd1 : 1 ≤ d := by
        simp only [hd, List.length_drop]
        omega
      have hd2 : d < M.length := by omega
      have heq : M = a.drop i ++ M.take (M.length - d) := by
        have h0 := List.prefix_iff_eq_take.mp hpre
        rw [List.take_append_eq_append_take,
          List.take_of_length_le (by omega),
          List.take_append_of_le_length (by omega)] at h0
        exact h0
      have hdrop : M.drop d = M.take (M.length - d) := by
        conv_lhs => rw [heq]
        rw [hd, List.drop_left]
      exact hsof d hd2 hd1 (hdrop ▸ List.take_prefix _ _)

theorem findSub_singleton_none {c : Char} {z : List Char} (h : c ∉ z) :
    findSub [c] z = none := by
  rw [findSub_eq_none_iff]
  intro i hpre
  rcases hpre with ⟨r, hr⟩
  apply h
  have hmem : c ∈ z.drop i := by
    rw [← hr]
    simp
  exact (List.drop_subset i z) hmem

theorem countSub_singleton_zero {c : Char} {z : List Char} (h : c ∉ z) :
    countSub [c] z = 0 := by
  rw [countSub_eq_zero_iff]
  intro hinf
  exact h (hinf.subset (by simp))

/-- C6 (amended): on input `prefix ++ OLD_MARKER ++ rest` (first marker
occurrence at the shown position), the extractor returns the empty string
when no newline follows the marker, and otherwise returns everything after
the first newline following the marker with leading and trailing whitespace
(Python `str.strip()`, not only blank lines) removed; in particular the
result is empty when nothing but whitespace follows that newline. -/
theorem legacy_extractor (a b : List Char) (ha : countSub OldMark a = 0) :
    (nl ∉ b → extractOldHookContent (a ++ OldMark ++ b) = []) ∧
    (∀ b1 b2 : List Char, nl ∉ b1 →
      extractOldHookContent (a ++ OldMark ++ (b1 ++ nl :: b2)) = pyStrip b2) := by
  constructor
  · intro hb
    have hfind := findSub_block_of_sof sofOld a b ha
    have hdrop : (a ++ OldMark ++ b).drop a.length = OldMark ++ b := by
      rw [List.append_assoc, List.drop_left]
    have hnl : findSub [nl] (OldMark ++ b) = none :=
      findSub_singleton_none (by
        simp only [List.mem_append]
        rintro (hc | hc)
        · exact nl_not_mem_OldMark hc
        · exact hb hc)
    simp only [extractOldHookContent, hfind, hdrop, hnl]
  · intro b1 b2 hb1
    have hfind := findSub_block_of_sof sofOld a (b1 ++ nl :: b2) ha
    have hdrop : (a ++ OldMark ++ (b1 ++ nl :: b2)).drop a.length =
        OldMark ++ (b1 ++ nl :: b2) := by
      rw [List.append_assoc, List.drop_left]
    have hshape : OldMark ++ (b1 ++ nl :: b2) = (OldMark ++ b1) ++ [nl] ++ b2 := by
      simp [List.append_assoc]
    have hnl : findSub [nl] (OldMark ++ (b1 ++ nl :: b2)) =
        some (OldMark.length + b1.length) := by
      rw [hshape]
      have := findSub_block_of_sof sofNl (OldMark ++ b1) b2
        (countSub_singleton_zero (by
          simp only [List.mem_append]
          rintro (hc | hc)
          · exact nl_not_mem_OldMark hc
          · exact hb1 hc))
      rw [this]
      simp
    simp only [extractOldHookContent, hfind, hdrop, hnl]
    have hidx : a.length + (OldMark.length + b1.length) + 1 =
        a.length + (OldMark.length + (b1.length + 1)) := by omega
    have hfinal : (a ++ OldMark ++ (b1 ++ nl :: b2)).drop
        (a.length + (OldMark.length + b1.length) + 1) = b2 := by
      rw [hidx, List.append_assoc, List.drop_append, List.drop_append]
      have h1 : (b1 ++ nl :: b2).drop (b1.length + 1) = (nl :: b2).drop 1 :=
        List.drop_append 1
      rw [h1]
      simp
    rw [hfinal]

theorem legacy_extractor_witness :
    extractOldHookContent (sl "q" ++ OldMark ++ (sl "h" ++ nl :: sl " pay ")) =
      pyStrip (sl " pay ") :=
  (legacy_extractor (sl "q") (sl "h" ++ nl :: sl " pay ") (by decide)).2
    (sl "h") (sl " pay ") (by decide)

/-- C6 counterexample: the extractor strips all surrounding whitespace, not
only blank lines: on `OLD_MARKER ++ "\nx "` it returns `"x"`, not the
claimed `"x "` (trailing space kept). -/
theorem legacy_extractor_cex :
    extractOldHookContent (OldMark ++ sl "\nx ") = sl "x" ∧ sl "x" ≠ sl "x " := by
  constructor
  · decide
  · decide

/-- C8 (amended): when the current text does not contain the start marker,
the Region Replacer appends — it first ensures the text ends in a newline
(appending one only if missing, keeping any extra trailing newlines), then
adds a blank line, the replacement block, and a final newline; the original
text is otherwise unchanged. -/
theorem region_replacer_append (currentContent newHookContent : List Char)
    (h : countSub Smark currentContent = 0) :
    ∃ ensured : List Char,
      (endsWithNl currentContent = true → ensured = currentContent) ∧
      (endsWithNl currentContent = false → ensured = currentContent ++ [nl]) ∧
      replaceCommitAssistantSection currentContent newHookContent =
        .ok (ensured ++ [nl] ++ Smark ++ [nl] ++ newHookContent ++ [nl]
          ++ Emark ++ [nl]) := by
  have hS : hasSubB Smark currentContent = false := (hasSubB_eq_false_iff _ _).mpr h
  refine ⟨if endsWithNl currentContent then currentContent
    else currentContent ++ [nl], ?_, ?_, ?_⟩
  · intro he
    rw [if_pos he]
  · intro he
    rw [if_neg (by rw [he]; exact Bool.false_ne_true)]
  · rw [replaceSection_append currentContent newHookContent hS]
    congr 1
    simp [List.append_assoc]

theorem region_replacer_append_witness :
    ∃ ensured : List Char,
      (endsWithNl (sl "a") = true → ensured = sl "a") ∧
      (endsWithNl (sl "a") = false → ensured = sl "a" ++ [nl]) ∧
      replaceCommitAssistantSection (sl "a") (sl "x") =
        .ok (ensured ++ [nl] ++ Smark ++ [nl] ++ sl "x" ++ [nl] ++ Emark ++ [nl]) :=
  region_replacer_append (sl "a") (sl "x") (by decide)

/-- C8 counterexample: the replacer only appends a newline when one is
missing; it does not normalize to exactly one trailing newline.  On a text
ending in two newlines, all of them are kept, so the output differs from
the claimed normalized form. -/
theorem region_replacer_append_cex :
    replaceCommitAssistantSection (sl "a\n\n") (sl "x") =
      .ok (sl "a\n\n" ++ [nl] ++ Smark ++ [nl] ++ sl "x" ++ [nl] ++ Emark ++ [nl]) ∧
    replaceCommitAssistantSection (sl "a\n\n") (sl "x") ≠
      .ok (sl "a\n" ++ [nl] ++ Smark ++ [nl] ++ sl "x" ++ [nl] ++ Emark ++ [nl]) := by
  constructor
  · decide
  · decide

/-- C7: on a fresh install into an existing hook file whose content does not
contain the start marker, the normalized user content (all embedded
`"#!/bin/sh\n"` lines removed) survives as a contiguous substring, preceded
by the synthesized shebang header and comment line and followed directly by
the appended Managed Region. -/
theorem content_preservation (currentContent hookTemplateContent : List Char)
    (hS : countSub Smark currentContent = 0)
    (hE : countSub Emark currentContent = 0) :
    ∃ pre post : List Char,
      injectHooks true currentContent hookTemplateContent =
        pre ++ pyReplace (sl "#!/bin/sh\n") [] currentContent ++ post ∧
      pre = sl "#!/bin/sh\n\n" ++ sl "# Original hook content\n" ∧
      post = [nl] ++ Smark ++ [nl] ++ hookTemplateContent ++ [nl] ++ Emark ++ [nl] := by
  have hSb : hasSubB Smark currentContent = false := (hasSubB_eq_false_iff _ _).mpr hS
  refine ⟨_, _, ?_, rfl, rfl⟩
  simp only [injectHooks, hSb]
  simp [List.append_assoc]

theorem content_preservation_witness :
    ∃ pre post : List Char,
      injectHooks true (sl "echo hi\n") (sl "x") =
        pre ++ pyReplace (sl "#!/bin/sh\n") [] (sl "echo hi\n") ++ post ∧
      pre = sl "#!/bin/sh\n\n" ++ sl "# Original hook content\n" ∧
      post = [nl] ++ Smark ++ [nl] ++ sl "x" ++ [nl] ++ Emark ++ [nl] :=
  content_preservation (sl "echo hi\n") (sl "x") (by decide) (by decide)

theorem countSub_shape (q X Y : List Char) (hnl : nl ∉ q) (hq : q ≠ []) :
    countSub q (X ++ [nl] ++ Smark ++ [nl] ++ Y ++ [nl] ++ Emark ++ [nl]) =
      countSub q X + countSub q Smark + countSub q Y + countSub q Emark := by
  have e1 : X ++ [nl] ++ Smark ++ [nl] ++ Y ++ [nl] ++ Emark ++ [nl] =
      X ++ nl :: (Smark ++ nl :: (Y ++ nl :: (Emark ++ nl :: []))) := by
    simp [List.append_assoc]
  rw [e1, countSub_append_cons _ _ _ _ hnl, countSub_append_cons _ _ _ _ hnl,
    countSub_append_cons _ _ _ _ hnl, countSub_append_cons _ _ _ _ hnl,
    countSub_nil_of_ne hq]
  omega

theorem countSub_OldMark_Smark : countSub OldMark Smark = 0 := by decide

theorem countSub_OldMark_Emark : countSub OldMark Emark = 0 := by decide

/-- Whatever the legacy extractor returns on `a ++ OLD_MARKER ++ b` (with
the first marker occurrence at `a.length`), it is a piece of the text after
the marker, so it is free of any pattern absent from `b`. -/
theorem countSub_extract_zero (a b : List Char) (ha : countSub OldMark a = 0)
    (hq : countSub OldMark b = 0) :
    countSub OldMark (extractOldHookContent (a ++ OldMark ++ b)) = 0 := by
  have hfind := findSub_block_of_sof sofOld a b ha
  have hdrop : (a ++ OldMark ++ b).drop a.length = OldMark ++ b := by
    rw [List.append_assoc, List.drop_left]
  cases hk : findSub [nl] (OldMark ++ b) with
  | none =>
    simp only [extractOldHookContent, hfind, hdrop, hk]
    exact countSub_nil_of_ne OldMark_ne_nil
  | some k =>
    simp only [extractOldHookContent, hfind, hdrop, hk]
    have hpre := ((findSub_eq_some_iff _ _ _).mp hk).1
    have hkM : OldMark.length ≤ k := by
      by_contra hlt
      rw [List.drop_append_of_le_length (by omega)] at hpre
      rcases hMd : OldMark.drop k with _ | ⟨m0, r0⟩
      · have := congrArg List.length hMd
        simp only [List.length_drop, List.length_nil] at this
        omega
      · rw [hMd, List.cons_append, List.cons_prefix_cons] at hpre
        have hm0 : m0 ∈ OldMark :=
          (List.drop_subset k OldMark) (by rw [hMd]; simp)
        rw [← hpre.1] at hm0
        exact nl_not_mem_OldMark hm0
    have hfinal : (a ++ OldMark ++ b).drop (a.length + k + 1) =
        b.drop (k + 1 - OldMark.length) := by
      have hidx : a.length + k + 1 = a.length + (k + 1) := by omega
      rw [List.append_assoc, hidx, List.drop_append,
        List.drop_append_eq_append_drop,
        List.drop_eq_nil_of_le (by omega), List.nil_append]
    rw [hfinal]
    exact countSub_zero_of_isInfix
      ((pyStrip_isInfix _).trans (List.drop_suffix _ _).isInfix) hq

/-- C4 (amended): migrating an OLD-format text whose legacy marker occurs
exactly once (written `a ++ OLD_MARKER ++ b` with no occurrence in `a` or
`b`) places the extracted legacy payload between the new markers, and the
legacy marker no longer occurs anywhere in the output. -/
theorem migration_safety (a b : List Char)
    (ha : countSub OldMark a = 0) (hb : countSub OldMark b = 0) :
    (∃ pre : List Char, migrateToNewFormat (a ++ OldMark ++ b) =
        pre ++ [nl] ++ Smark ++ [nl] ++ extractOldHookContent (a ++ OldMark ++ b)
          ++ [nl] ++ Emark ++ [nl]) ∧
    countSub OldMark (migrateToNewFormat (a ++ OldMark ++ b)) = 0 := by
  have hfind := findSub_block_of_sof sofOld a b ha
  have htake : (a ++ OldMark ++ b).take a.length = a := by
    rw [List.append_assoc, List.take_left]
  have hout : migrateToNewFormat (a ++ OldMark ++ b) =
      pyRstrip a ++ [nl, nl] ++ Smark ++ [nl]
        ++ extractOldHookContent (a ++ OldMark ++ b) ++ [nl] ++ Emark ++ [nl] := by
    simp only [migrateToNewFormat, hfind, htake]
  constructor
  · refine ⟨pyRstrip a ++ [nl], ?_⟩
    rw [hout]
    simp [List.append_assoc]
  · rw [hout]
    have hshape : pyRstrip a ++ [nl, nl] ++ Smark ++ [nl]
        ++ extractOldHookContent (a ++ OldMark ++ b) ++ [nl] ++ Emark ++ [nl] =
        (pyRstrip a ++ [nl]) ++ [nl] ++ Smark ++ [nl]
          ++ extractOldHookContent (a ++ OldMark ++ b) ++ [nl] ++ Emark ++ [nl] := by
      simp [List.append_assoc]
    rw [hshape, countSub_shape _ _ _ nl_not_mem_OldMark OldMark_ne_nil]
    have h1 : countSub OldMark (pyRstrip a ++ [nl]) = 0 :=
      countSub_append_nl_right OldMark_ne_nil nl_not_mem_OldMark
        (countSub_zero_of_isInfix (pyRstrip_isInfix a) ha)
    rw [h1, countSub_OldMark_Smark, countSub_OldMark_Emark,
      countSub_extract_zero a b ha hb]

set_option maxRecDepth 40000 in
theorem migration_safety_witness :
    (∃ pre : List Char, migrateToNewFormat (sl "top" ++ OldMark ++ sl "\nold cmd") =
        pre ++ [nl] ++ Smark ++ [nl]
          ++ extractOldHookContent (sl "top" ++ OldMark ++ sl "\nold cmd")
          ++ [nl] ++ Emark ++ [nl]) ∧
    countSub OldMark (migrateToNewFormat (sl "top" ++ OldMark ++ sl "\nold cmd")) = 0 :=
  migration_safety (sl "top") (sl "\nold cmd") (by decide) (by decide)

set_option maxRecDepth 40000 in
/-- C4 counterexample: an OLD-format input in which the legacy marker occurs
twice (the second occurrence being part of the legacy payload) still
qualifies (it contains the legacy marker, no start marker, and a non-empty
payload), yet the legacy marker survives migration inside the new region. -/
theorem migration_safety_cex :
    (countSub Smark (OldMark ++ nl :: OldMark) = 0 ∧
     extractOldHookContent (OldMark ++ nl :: OldMark) ≠ []) ∧
    countSub OldMark (migrateToNewFormat (OldMark ++ nl :: OldMark)) ≠ 0 := by
  constructor
  · constructor
    · decide
    · decide
  · decide

/-- C5 (amended): for every current text consisting of a start-marker-free
prefix, exactly one well-formed span (start marker, newline, middle without
end-pattern occurrence, newline, end marker) and a start-marker-free
suffix, and every payload free of backslashes, the Region Replacer
completes without raising and substitutes the whole span (both markers
included) by the block with the payload verbatim. -/
theorem region_replacer_totality (u mid v p : List Char)
    (hp : ∀ c ∈ p, c ≠ '\\')
    (hu : countSub Smark u = 0) (hmid : countSub Emark mid = 0)
    (hv : countSub Smark v = 0) :
    replaceCommitAssistantSection (u ++ Apat ++ mid ++ Zpat ++ v) p =
      .ok (u ++ Apat ++ p ++ Zpat ++ v) := by
  obtain ⟨tm, htm, hexp⟩ := parseTemplate_block p hp
  rw [replaceSection_sub _ p tm (hasSubB_block u mid v) htm,
    resub_span tm _ hexp u mid v hu hmid, resub_none tm v hv]
  congr 1
  simp [List.append_assoc]

theorem region_replacer_totality_witness :
    replaceCommitAssistantSection
        (sl "a\n" ++ Apat ++ sl "old" ++ Zpat ++ sl "\nb") (sl "x") =
      .ok (sl "a\n" ++ Apat ++ sl "x" ++ Zpat ++ sl "\nb") :=
  region_replacer_totality (sl "a\n") (sl "old") (sl "\nb") (sl "x")
    (by decide) (by decide) (by decide) (by decide)

set_option maxRecDepth 40000 in
/-- C5 counterexample: on a text with exactly one well-formed span, a
payload containing a backslash (here `\1`, a group reference to a group the
pattern does not have) makes the replacer raise `re.error` instead of
substituting verbatim. -/
theorem region_replacer_totality_cex :
    replaceCommitAssistantSection (Apat ++ sl "m" ++ Zpat) (sl "\\1") =
      .error "invalid group reference" := by decide

/-- C10 (implicit claim): `re.sub` is called without a count, so on a text
made of a start-marker-free gap followed by any positive number of
well-formed spans (each separated by start-marker-free gaps, middles free
of the end pattern), an update substitutes every span, not only the first
one; the payload is free of replacement-escape sequences (backslashes). -/
theorem multi_region_replace (u0 : List Char)
    (spans : List (List Char × List Char)) (p : List Char)
    (hp : ∀ c ∈ p, c ≠ '\\')
    (hne : spans ≠ [])
    (h0 : countSub Smark u0 = 0)
    (hs : ∀ s ∈ spans, countSub Emark s.1 = 0 ∧ countSub Smark s.2 = 0) :
    replaceCommitAssistantSection
        (u0 ++ (spans.map (fun s => Apat ++ s.1 ++ Zpat ++ s.2)).flatten) p =
      .ok (u0 ++ (spans.map (fun s => Apat ++ p ++ Zpat ++ s.2)).flatten) := by
  obtain ⟨tm, htm, hexp⟩ := parseTemplate_block p hp
  have hmain : ∀ (sp : List (List Char × List Char)) (w : List Char),
      countSub Smark w = 0 →
      (∀ s ∈ sp, countSub Emark s.1 = 0 ∧ countSub Smark s.2 = 0) →
      resubGoT tm (w ++ (sp.map (fun s => Apat ++ s.1 ++ Zpat ++ s.2)).flatten) =
        w ++ (sp.map (fun s => Apat ++ p ++ Zpat ++ s.2)).flatten := by
    intro sp
    induction sp with
    | nil =>
      intro w hw _
      simpa using resub_none tm w hw
    | cons s rest ih =>
      intro w hw hall
      have hsplit : w ++ (((s :: rest).map
            (fun s => Apat ++ s.1 ++ Zpat ++ s.2)).flatten) =
          w ++ Apat ++ s.1 ++ Zpat ++
            (s.2 ++ ((rest.map (fun s => Apat ++ s.1 ++ Zpat ++ s.2)).flatten)) := by
        simp [List.append_assoc]
      rw [hsplit, resub_span tm _ hexp w s.1 _ hw (hall s (List.mem_cons_self s rest)).1,
        ih s.2 (hall s (List.mem_cons_self s rest)).2
          (fun s' hs' => hall s' (List.mem_cons_of_mem s hs'))]
      simp [List.append_assoc]
  cases spans with
  | nil => exact absurd rfl hne
  | cons s rest =>
    have hS : hasSubB Smark
        (u0 ++ (((s :: rest).map (fun s => Apat ++ s.1 ++ Zpat ++ s.2)).flatten)) = true := by
      have hsplit : u0 ++ (((s :: rest).map
            (fun s => Apat ++ s.1 ++ Zpat ++ s.2)).flatten) =
          u0 ++ Apat ++ s.1 ++ Zpat ++
            (s.2 ++ ((rest.map (fun s => Apat ++ s.1 ++ Zpat ++ s.2)).flatten)) := by
        simp [List.append_assoc]
      rw [hsplit]
      exact hasSubB_block _ _ _
    rw [replaceSection_sub _ p tm hS htm, hmain (s :: rest) u0 h0 hs]

theorem multi_region_replace_witness :
    replaceCommitAssistantSection
        (sl "g0\n" ++ (([(sl "m1", sl "\ng1\n"), (sl "m2", sl "\ng2")].map
          (fun s => Apat ++ s.1 ++ Zpat ++ s.2)).flatten)) (sl "x") =
      .ok (sl "g0\n" ++ (([(sl "m1", sl "\ng1\n"), (sl "m2", sl "\ng2")].map
          (fun s => Apat ++ sl "x" ++ Zpat ++ s.2)).flatten)) :=
  multi_region_replace (sl "g0\n") [(sl "m1", sl "\ng1\n"), (sl "m2", sl "\ng2")]
    (sl "x") (by decide) (by decide) (by decide) (by decide)

/-! ## Marker uniqueness (C2) -/

theorem countSub_Smark_Smark : countSub Smark Smark = 1 := by decide

theorem countSub_Smark_Emark : countSub Smark Emark = 0 := by decide

theorem countSub_Emark_Smark : countSub Emark Smark = 0 := by decide

theorem countSub_Emark_Emark : countSub Emark Emark = 1 := by decide

theorem counts_one_of_shape (X Y : List Char)
    (hXS : countSub Smark X = 0) (hXE : countSub Emark X = 0)
    (hYS : countSub Smark Y = 0) (hYE : countSub Emark Y = 0) :
    countSub Smark (X ++ [nl] ++ Smark ++ [nl] ++ Y ++ [nl] ++ Emark ++ [nl]) = 1 ∧
    countSub Emark (X ++ [nl] ++ Smark ++ [nl] ++ Y ++ [nl] ++ Emark ++ [nl]) = 1 := by
  constructor
  · rw [countSub_shape Smark X Y nl_not_mem_Smark Smark_ne_nil, hXS, hYS,
      countSub_Smark_Smark, countSub_Smark_Emark]
  · rw [countSub_shape Emark X Y nl_not_mem_Emark Emark_ne_nil, hXE, hYE,
      countSub_Emark_Smark, countSub_Emark_Emark]

theorem extract_isInfix (c : List Char) : extractOldHookContent c <:+: c := by
  cases h1 : findSub OldMark c with
  | none =>
    simp only [extractOldHookContent, h1]
    exact List.nil_infix
  | some i =>
    cases h2 : findSub [nl] (c.drop i) with
    | none =>
      simp only [extractOldHookContent, h1, h2]
      exact List.nil_infix
    | some k =>
      simp only [extractOldHookContent, h1, h2]
      exact (pyStrip_isInfix _).trans (List.drop_suffix _ c).isInfix

theorem countSub_shebang1_S : countSub Smark (sl "#!/bin/sh\n") = 0 := by decide

theorem countSub_shebang1_E : countSub Emark (sl "#!/bin/sh\n") = 0 := by decide

theorem countSub_header_S :
    countSub Smark (sl "#!/bin/sh\n\n# Original hook content") = 0 := by decide

theorem countSub_header_E :
    countSub Emark (sl "#!/bin/sh\n\n# Original hook content") = 0 := by decide

theorem shebang2_eq : sl "#!/bin/sh\n\n" = sl "#!/bin/sh\n" ++ [nl] := by decide

theorem header_eq :
    sl "#!/bin/sh\n\n" ++ sl "# Original hook content\n" =
      sl "#!/bin/sh\n\n# Original hook content" ++ [nl] := by decide

theorem header_eq2 (z : List Char) :
    sl "#!/bin/sh\n\n" ++ (sl "# Original hook content\n" ++ z) =
      sl "#!/bin/sh\n\n# Original hook content" ++ nl :: z := by
  rw [← List.append_assoc, header_eq]
  simp

/-- C2 (amended): after each text-producing operation, the output contains
each marker exactly once, provided the payload contains neither marker, the
pre-existing text contains neither marker, and — for the install-merge case
— the pre-existing text still contains neither marker after its embedded
`"#!/bin/sh\n"` lines are removed (the normalization can otherwise splice a
marker together, see the counterexample). -/
theorem marker_uniqueness (tmplC cur pay a b : List Char) :
    (countSub Smark tmplC = 0 → countSub Emark tmplC = 0 →
      countSub Smark (injectHooks false cur tmplC) = 1 ∧
      countSub Emark (injectHooks false cur tmplC) = 1) ∧
    (countSub Smark cur = 0 →
      countSub Smark (pyReplace (sl "#!/bin/sh\n") [] cur) = 0 →
      countSub Emark (pyReplace (sl "#!/bin/sh\n") [] cur) = 0 →
      countSub Smark tmplC = 0 → countSub Emark tmplC = 0 →
      countSub Smark (injectHooks true cur tmplC) = 1 ∧
      countSub Emark (injectHooks true cur tmplC) = 1) ∧
    (countSub Smark cur = 0 → countSub Emark cur = 0 →
      countSub Smark pay = 0 → countSub Emark pay = 0 →
      ∀ r, replaceCommitAssistantSection cur pay = .ok r →
        countSub Smark r = 1 ∧ countSub Emark r = 1) ∧
    (countSub OldMark a = 0 →
      countSub Smark (a ++ OldMark ++ b) = 0 →
      countSub Emark (a ++ OldMark ++ b) = 0 →
      countSub Smark (migrateToNewFormat (a ++ OldMark ++ b)) = 1 ∧
      countSub Emark (migrateToNewFormat (a ++ OldMark ++ b)) = 1) := by
  refine ⟨?_, ?_, ?_, ?_⟩
  · -- fresh install, no pre-existing file
    intro htS htE
    have he : injectHooks false cur tmplC =
        sl "#!/bin/sh\n" ++ [nl] ++ Smark ++ [nl] ++ tmplC ++ [nl] ++ Emark ++ [nl] := by
      simp only [injectHooks]
      rw [shebang2_eq]
      simp [List.append_assoc]
    rw [he]
    exact counts_one_of_shape _ _ countSub_shebang1_S countSub_shebang1_E htS htE
  · -- install into an existing marker-free file
    intro hcS hnS hnE htS htE
    have hSb : hasSubB Smark cur = false := (hasSubB_eq_false_iff _ _).mpr hcS
    have he : injectHooks true cur tmplC =
        (sl "#!/bin/sh\n\n# Original hook content" ++
          nl :: pyReplace (sl "#!/bin/sh\n") [] cur)
          ++ [nl] ++ Smark ++ [nl] ++ tmplC ++ [nl] ++ Emark ++ [nl] := by
      simp [injectHooks, hSb, List.append_assoc, header_eq2]
    rw [he]
    have hX : ∀ q : List Char, q ≠ [] → nl ∉ q →
        countSub q (sl "#!/bin/sh\n\n# Original hook content") = 0 →
        countSub q (pyReplace (sl "#!/bin/sh\n") [] cur) = 0 →
        countSub q (sl "#!/bin/sh\n\n# Original hook content" ++
          nl :: pyReplace (sl "#!/bin/sh\n") [] cur) = 0 := by
      intro q hq hnl hh hc
      rw [countSub_append_cons _ _ _ _ hnl, hh, hc]
    exact counts_one_of_shape _ _
      (hX Smark Smark_ne_nil nl_not_mem_Smark countSub_header_S hnS)
      (hX Emark Emark_ne_nil nl_not_mem_Emark countSub_header_E hnE)
      htS htE
  · -- update of a marker-free file: append path
    intro hcS hcE hpS hpE r hr
    have hSb : hasSubB Smark cur = false := (hasSubB_eq_false_iff _ _).mpr hcS
    rw [replaceSection_append cur pay hSb] at hr
    have hrr : r = (if endsWithNl cur then cur else cur ++ [nl]) ++ [nl]
        ++ (Smark ++ [nl] ++ pay ++ [nl] ++ Emark) ++ [nl] := (Except.ok.inj hr).symm
    have hshape : r = (if endsWithNl cur then cur else cur ++ [nl]) ++ [nl]
        ++ Smark ++ [nl] ++ pay ++ [nl] ++ Emark ++ [nl] := by
      rw [hrr]
      simp [List.append_assoc]
    rw [hshape]
    have hens : ∀ q : List Char, q ≠ [] → nl ∉ q → countSub q cur = 0 →
        countSub q (if endsWithNl cur then cur else cur ++ [nl]) = 0 := by
      intro q hq hnl hc
      by_cases hend : endsWithNl cur
      · rw [if_pos hend]
        exact hc
      · rw [if_neg hend]
        exact countSub_append_nl_right hq hnl hc
    exact counts_one_of_shape _ _
      (hens Smark Smark_ne_nil nl_not_mem_Smark hcS)
      (hens Emark Emark_ne_nil nl_not_mem_Emark hcE)
      hpS hpE
  · -- migration of a marker-free OLD-format file
    intro ha hS hE
    have hfind := findSub_block_of_sof sofOld a b ha
    have htake : (a ++ OldMark ++ b).take a.length = a := by
      rw [List.append_assoc, List.take_left]
    have hout : migrateToNewFormat (a ++ OldMark ++ b) =
        (pyRstrip a ++ [nl]) ++ [nl] ++ Smark ++ [nl]
          ++ extractOldHookContent (a ++ OldMark ++ b) ++ [nl] ++ Emark ++ [nl] := by
      simp only [migrateToNewFormat, hfind, htake]
      simp [List.append_assoc]
    rw [hout]
    have hamono : ∀ q : List Char, countSub q (a ++ OldMark ++ b) = 0 →
        countSub q a = 0 :=
      fun q hq => countSub_zero_of_isInfix
        (by
          rw [List.append_assoc]
          exact (List.prefix_append a (OldMark ++ b)).isInfix) hq
    have hemono : ∀ q : List Char, countSub q (a ++ OldMark ++ b) = 0 →
        countSub q (extractOldHookContent (a ++ OldMark ++ b)) = 0 :=
      fun q hq => countSub_zero_of_isInfix (extract_isInfix _) hq
    exact counts_one_of_shape _ _
      (countSub_append_nl_right Smark_ne_nil nl_not_mem_Smark
        (countSub_zero_of_isInfix (pyRstrip_isInfix a) (hamono Smark hS)))
      (countSub_append_nl_right Emark_ne_nil nl_not_mem_Emark
        (countSub_zero_of_isInfix (pyRstrip_isInfix a) (hamono Emark hE)))
      (hemono Smark hS) (hemono Emark hE)

theorem marker_uniqueness_witness :
    countSub Smark (injectHooks false [] (sl "x")) = 1 ∧
    countSub Emark (injectHooks false [] (sl "x")) = 1 :=
  (marker_uniqueness (sl "x") [] [] [] []).1 (by decide) (by decide)

set_option maxRecDepth 40000 in
/-- C2 counterexample: a pre-existing hook content that contains neither
marker can have the start marker spliced together by the shebang-line
normalization of `_inject_hooks` (removing an embedded `"#!/bin/sh\n"`
joins the two halves of a marker), so the installed file contains the start
marker twice. -/
theorem marker_uniqueness_cex :
    countSub Smark
      (sl "### BEGIN: commit-assistant hook sec#!/bin/sh\ntion (DO NOT REMOVE) ###") = 0 ∧
    countSub Emark
      (sl "### BEGIN: commit-assistant hook sec#!/bin/sh\ntion (DO NOT REMOVE) ###") = 0 ∧
    countSub Smark (injectHooks true
      (sl "### BEGIN: commit-assistant hook sec#!/bin/sh\ntion (DO NOT REMOVE) ###")
      (sl "x")) = 2 := by
  refine ⟨by decide, by decide, by decide⟩
